import Mathlib

/-!
Shallow embedding of the minesweeper_rs repository (src/game.rs, src/lib.rs,
src/main.rs, src/solver.rs) and proofs about the claims of its specification.

Machine integers (`usize`) are modelled as `Nat`; the claims settled here never
depend on wrap-around, and where the Rust source could panic (indexing an empty
vector) the embedding makes the panic explicit in the result type.
-/

/-! ## Board model (src/game.rs) -/

/-- `CellState` from src/game.rs. -/
inductive CellState where
  | Empty : CellState
  | Mine : CellState
deriving DecidableEq, Repr

/-- `CellVisibility` from src/game.rs.  `Empty n` is the "revealed, showing
clue `n`" visibility (n = number of neighbors that are mines). -/
inductive CellVisibility where
  | Unknown : CellVisibility
  | Flagged : CellVisibility
  | Empty : Nat → CellVisibility
deriving DecidableEq, Repr

/-- `Cell` from src/game.rs. -/
structure Cell where
  state : CellState
  visibility : CellVisibility
deriving DecidableEq, Repr

/-- `GameCondition` from src/game.rs. -/
inductive GameCondition where
  | InProgress : GameCondition
  | Won : GameCondition
  | Lost : GameCondition
deriving DecidableEq, Repr

/-- `GameState` from src/game.rs.  The field vector is stored flat, indexed
`y * width + x` exactly as in the source. -/
structure GameState where
  field : List Cell
  width : Nat
  height : Nat
  game_condition : GameCondition
  bomb_count : Nat
  flagged_count : Nat
deriving DecidableEq, Repr

/-- Default cell used to model `Option::unwrap` at places where the source
unwraps a cell that is always present (in-bounds accesses on well-formed
boards); the default is never reached under the well-formedness hypotheses
of the theorems below. -/
def defaultCell : Cell := ⟨CellState.Empty, CellVisibility.Unknown⟩

/-- `GameState::at` from src/game.rs: bounds-checked cell access. -/
def GameState.cellAt (g : GameState) (x y : Nat) : Option Cell :=
  if g.width ≤ x ∨ g.height ≤ y then none
  else g.field.get? (y * g.width + x)

/-- `GameState::at(x, y).unwrap()`. -/
def GameState.cellAtD (g : GameState) (x y : Nat) : Cell :=
  (g.cellAt x y).getD defaultCell

/-- Writing through `GameState::at_mut(x, y).unwrap()`: replaces the cell at
`y * width + x`.  All call sites in the source write in-bounds positions. -/
def GameState.setCell (g : GameState) (x y : Nat) (c : Cell) : GameState :=
  { g with field := g.field.set (y * g.width + x) c }

/-- The offset list `[-1isize, 0, 1]` iterated by `GameState::neighbors`. -/
def neighborOffsets : List Int := [-1, 0, 1]

/-- `GameState::neighbors` from src/game.rs: the in-bounds Moore neighborhood,
produced in the source's iteration order (outer `x_offset`, inner `y_offset`),
skipping `(0,0)` and offsets that would wrap below zero. -/
def GameState.neighbors (g : GameState) (x y : Nat) : List (Nat × Nat) :=
  neighborOffsets.flatMap fun xo =>
    neighborOffsets.flatMap fun yo =>
      if xo = 0 ∧ yo = 0 then []
      else if (x = 0 ∧ xo < 0) ∨ (y = 0 ∧ yo < 0) then []
      else
        let nx := ((x : Int) + xo).toNat
        let ny := ((y : Int) + yo).toNat
        if g.width ≤ nx ∨ g.height ≤ ny then [] else [(nx, ny)]

/-- `GameState::remaining_mines` from src/game.rs. -/
def GameState.remaining_mines (g : GameState) : Nat :=
  g.bomb_count - g.flagged_count

/-- `GameState::flag` from src/game.rs: no-op when out of bounds; increments
`flagged_count` (and possibly sets `Won`) when an unflagged mine is flagged;
unconditionally rewrites the cell with visibility `Flagged`. -/
def GameState.flag (g : GameState) (x y : Nat) : GameState :=
  match g.cellAt x y with
  | none => g
  | some copy =>
    (if copy.state = CellState.Mine ∧ copy.visibility ≠ CellVisibility.Flagged then
      { g with
        flagged_count := g.flagged_count + 1,
        game_condition :=
          if g.flagged_count + 1 = g.bomb_count then GameCondition.Won
          else g.game_condition }
     else g).setCell x y { copy with visibility := CellVisibility.Flagged }

/-- The neighbor-mine count computed inside `GameState::click`
(`if let Some(cell) = self.at(..)` treats out-of-range as 0). -/
def GameState.clickMineCount (g : GameState) (x y : Nat) : Nat :=
  ((g.neighbors x y).map fun e =>
    match g.cellAt e.1 e.2 with
    | some cell => if cell.state = CellState.Mine then 1 else 0
    | none => 0).sum

/-- `GameState::click` from src/game.rs.  The source's flood-fill queue is
statically dead: `click_neighbors` is initialised to `false` and the only
assignment `click_neighbors = true;` is commented out, so the queue processes
exactly the initial coordinate; the loop body is embedded directly.
A mine cell sets the condition to `Lost` (regardless of its visibility) and is
written back unchanged; an unknown empty cell is revealed with its
neighbor-mine count; any other cell is written back unchanged. -/
def GameState.click (g : GameState) (x y : Nat) : GameState :=
  match g.cellAt x y with
  | none => g
  | some copy =>
    match copy.state, copy.visibility with
    | CellState.Mine, _ =>
      { g with game_condition := GameCondition.Lost }.setCell x y copy
    | CellState.Empty, CellVisibility.Unknown =>
      g.setCell x y { copy with visibility := CellVisibility.Empty (g.clickMineCount x y) }
    | CellState.Empty, CellVisibility.Flagged => g.setCell x y copy
    | CellState.Empty, CellVisibility.Empty _ => g.setCell x y copy

/-- The mine-neighbor recount against the hypothetical board computed inside
`GameState::validate` (`hypothetical.at(e.0, e.1).unwrap()`). -/
def GameState.hypMineCount (h : GameState) (x y : Nat) : Nat :=
  ((h.neighbors x y).map fun e =>
    if (h.cellAtD e.1 e.2).state = CellState.Mine then 1 else 0).sum

/-- The loop body of `GameState::validate`, recursing over the zipped fields
with the running index `i` of `enumerate` (the early `return false` of the
source is the short-circuiting `&&`). -/
def validateAux (g h : GameState) : Nat → List Cell → List Cell → Bool
  | _, [], _ => true
  | _, _ :: _, [] => true
  | i, c1 :: t1, _ :: t2 =>
    (match c1.visibility with
     | CellVisibility.Empty n1 => n1 = h.hypMineCount (i % g.width) (i / g.width)
     | _ => true)
    && validateAux g h (i + 1) t1 t2

/-- `GameState::validate` from src/game.rs: every revealed clue of the real
board must equal the mine-neighbor recount on the hypothetical board. -/
def GameState.validate (g h : GameState) : Bool :=
  validateAux g h 0 g.field h.field

/-- Well-formed board: the flat field has exactly `width * height` cells
(guaranteed by `GameState::new`). -/
def GameState.WF (g : GameState) : Prop :=
  g.field.length = g.width * g.height

/-! ## General helper lemmas -/

/-- Setting a list position to the value it already holds is the identity. -/
theorem set_getElem?_self {α : Type _} (l : List α) (i : Nat) (b : α)
    (h : l[i]? = some b) : l.set i b = l := by
  ext1 j
  rw [List.getElem?_set]
  split
  · next heq =>
    subst heq
    split
    · exact h.symm
    · next hge => exact (List.getElem?_eq_none (Nat.le_of_not_lt hge)).symm
  · rfl

/-- Flat-index injectivity for `y * width + x` with `x` in range. -/
theorem flatIndex_inj {w x x' y y' : Nat} (hx : x < w) (hx' : x' < w)
    (he : y' * w + x' = y * w + x) : x' = x ∧ y' = y := by
  have hw : 0 < w := Nat.lt_of_le_of_lt (Nat.zero_le x) hx
  have hm : (y' * w + x') % w = (y * w + x) % w := by rw [he]
  rw [Nat.mul_comm y' w, Nat.mul_comm y w, Nat.mul_add_mod, Nat.mul_add_mod,
    Nat.mod_eq_of_lt hx, Nat.mod_eq_of_lt hx'] at hm
  have hy : y' * w = y * w := by
    rw [hm] at he
    exact Nat.add_right_cancel he
  exact ⟨hm, Nat.eq_of_mul_eq_mul_right hw hy⟩

/-- Unfolding characterisation of `GameState.cellAt` succeeding. -/
theorem cellAt_eq_some {g : GameState} {x y : Nat} {c : Cell} :
    g.cellAt x y = some c ↔
      (x < g.width ∧ y < g.height) ∧ g.field.get? (y * g.width + x) = some c := by
  unfold GameState.cellAt
  split
  · next hc => simp; omega
  · next hc =>
    push_neg at hc
    simp [hc]

/-- `cellAt` is `none` exactly on out-of-bounds coordinates of a well-formed
board. -/
theorem cellAt_eq_none_of_oob {g : GameState} {x y : Nat}
    (h : g.width ≤ x ∨ g.height ≤ y) : g.cellAt x y = none := by
  unfold GameState.cellAt
  simp [h]

/-- Unfolding lemma for `GameState.flag` on an in-bounds cell. -/
theorem flag_eq_of_cellAt {g : GameState} {x y : Nat} {c : Cell}
    (h : g.cellAt x y = some c) :
    g.flag x y =
      (if c.state = CellState.Mine ∧ c.visibility ≠ CellVisibility.Flagged then
        { g with
          flagged_count := g.flagged_count + 1,
          game_condition :=
            if g.flagged_count + 1 = g.bomb_count then GameCondition.Won
            else g.game_condition }
       else g).setCell x y { c with visibility := CellVisibility.Flagged } := by
  unfold GameState.flag
  rw [h]

/-- Unfolding lemma for `GameState.click` on an in-bounds cell. -/
theorem click_eq_of_cellAt {g : GameState} {x y : Nat} {c : Cell}
    (h : g.cellAt x y = some c) :
    g.click x y =
      match c.state, c.visibility with
      | CellState.Mine, _ =>
        { g with game_condition := GameCondition.Lost }.setCell x y c
      | CellState.Empty, CellVisibility.Unknown =>
        g.setCell x y { c with visibility := CellVisibility.Empty (g.clickMineCount x y) }
      | CellState.Empty, CellVisibility.Flagged => g.setCell x y c
      | CellState.Empty, CellVisibility.Empty _ => g.setCell x y c := by
  unfold GameState.click
  rw [h]

/-! ## Reachability model for board states

`GameState::new` (src/game.rs) performs random mine placement; the loop
re-rolls until exactly `num_bombs` distinct cells hold mines, every visibility
starts `Unknown`, the condition starts `InProgress` and `flagged_count` starts
at 0.  `InitState` captures exactly this postcondition; randomness itself is
not embeddable. -/

/-- Number of mine cells in a field. -/
def mineCount (l : List Cell) : Nat :=
  l.countP fun c => decide (c.state = CellState.Mine)

/-- Number of flagged mine cells in a field. -/
def flaggedMineCount (l : List Cell) : Nat :=
  l.countP fun c =>
    decide (c.state = CellState.Mine ∧ c.visibility = CellVisibility.Flagged)

/-- Postcondition of `GameState::new(width, height, num_bombs)`. -/
def InitState (w h n : Nat) (g : GameState) : Prop :=
  g.width = w ∧ g.height = h ∧ g.bomb_count = n ∧
  g.game_condition = GameCondition.InProgress ∧ g.flagged_count = 0 ∧
  g.field.length = w * h ∧ (∀ c ∈ g.field, c.visibility = CellVisibility.Unknown) ∧
  mineCount g.field = n

/-- One user-visible board operation (`click` or `flag` at an arbitrary
coordinate). -/
def Step (g g' : GameState) : Prop :=
  (∃ x y, g' = g.click x y) ∨ (∃ x y, g' = g.flag x y)

/-- A board state reachable from another by a sequence of clicks and flags. -/
def Reachable (g g' : GameState) : Prop :=
  Relation.ReflTransGen Step g g'

/-! ## Claim C3 — clicking a resolved or out-of-bounds cell -/

/-- A 1×1 board whose only cell is a flagged mine (reachable by flagging the
mine of a fresh 1×1 board with one bomb). -/
def gFlagMine : GameState :=
  ⟨[⟨CellState.Mine, CellVisibility.Flagged⟩], 1, 1, GameCondition.InProgress, 1, 1⟩

/-- Claim C3, counterexample: the claim states that clicking a cell whose
visibility is `Flagged` is a silent no-op with no `Lost` transition; but
clicking the flagged mine of `gFlagMine` sets the game condition to `Lost`
(the `Mine` match arm of `GameState::click` ignores visibility). -/
theorem click_flagged_mine_sets_lost :
    gFlagMine.game_condition = GameCondition.InProgress ∧
    (gFlagMine.cellAt 0 0).map Cell.visibility = some CellVisibility.Flagged ∧
    (gFlagMine.click 0 0).game_condition = GameCondition.Lost ∧
    gFlagMine.click 0 0 ≠ gFlagMine := by
  decide

/-- Claim C3 (amended): clicking an out-of-bounds coordinate is a silent
no-op, and clicking a cell whose state is `Empty` and whose visibility is
`Flagged` or already revealed (`Empty n`) is a silent no-op — the whole
`GameState` is unchanged.  (The original claim also covered flagged/revealed
*mine* cells; clicking those sets `Lost`, see the counterexample.) -/
theorem click_resolved_cell_noop (g : GameState) (x y : Nat) :
    (g.cellAt x y = none → g.click x y = g) ∧
    (∀ c, g.cellAt x y = some c → c.state = CellState.Empty →
      (c.visibility = CellVisibility.Flagged ∨
        ∃ n, c.visibility = CellVisibility.Empty n) →
      g.click x y = g) := by
  constructor
  · intro h
    unfold GameState.click
    rw [h]
  · intro c hc hs hv
    have hset : g.setCell x y c = g := by
      unfold GameState.setCell
      have hg : g.field.get? (y * g.width + x) = some c := (cellAt_eq_some.mp hc).2
      rw [List.get?_eq_getElem?] at hg
      rw [set_getElem?_self _ _ _ hg]
    unfold GameState.click
    rw [hc]
    obtain ⟨cs, cv⟩ := c
    cases hs
    rcases hv with hv | ⟨n, hv⟩ <;> cases hv <;> exact hset

/-- A 2×2 board with an empty flagged cell at `(0,0)` and a mine at `(1,1)`. -/
def g22F : GameState :=
  ⟨[⟨CellState.Empty, CellVisibility.Flagged⟩, ⟨CellState.Empty, CellVisibility.Unknown⟩,
    ⟨CellState.Empty, CellVisibility.Unknown⟩, ⟨CellState.Mine, CellVisibility.Unknown⟩],
   2, 2, GameCondition.InProgress, 1, 0⟩

/-- Claim C3, witness for the amended theorem at concrete inputs. -/
theorem click_resolved_cell_noop_witness :
    gFlagMine.cellAt 5 7 = none ∧ gFlagMine.click 5 7 = gFlagMine ∧
    g22F.click 0 0 = g22F := by
  refine ⟨by decide, (click_resolved_cell_noop gFlagMine 5 7).1 (by decide), ?_⟩
  exact (click_resolved_cell_noop g22F 0 0).2 ⟨CellState.Empty, CellVisibility.Flagged⟩
    (by decide) rfl (Or.inl rfl)

/-! ## Claim C2 — (non-)terminality of the game condition -/

/-- A fresh 1×1 board holding a single unknown mine. -/
def gMine1 : GameState :=
  ⟨[⟨CellState.Mine, CellVisibility.Unknown⟩], 1, 1, GameCondition.InProgress, 1, 0⟩

/-- Claim C2, counterexample: `gMine1` satisfies the `GameState::new`
postcondition, flagging its mine reaches a `Won` state, and clicking the mine
of that reachable `Won` state sets the condition to `Lost` — so `Won` is not
terminal under `click`. -/
theorem won_state_clicks_to_lost :
    InitState 1 1 1 gMine1 ∧
    Reachable gMine1 (gMine1.flag 0 0) ∧
    (gMine1.flag 0 0).game_condition = GameCondition.Won ∧
    ((gMine1.flag 0 0).click 0 0).game_condition = GameCondition.Lost := by
  refine ⟨?_, Relation.ReflTransGen.single (Or.inr ⟨0, 0, rfl⟩), by decide, by decide⟩
  unfold InitState
  refine ⟨rfl, rfl, rfl, rfl, rfl, by decide, by decide, by decide⟩

/-- Claim C2 (amended): `click` and `flag` never consult `game_condition`, so
the condition is not terminal at the level of these operations: clicking any
in-bounds mine cell sets the condition to `Lost` whatever it was before (in
particular from `Won`), and flagging an in-bounds not-yet-flagged mine that
brings `flagged_count` up to `bomb_count` sets it to `Won` whatever it was
before (in particular from `Lost`).  Terminality holds only in the driver
loop of src/main.rs, which restarts the game as soon as the condition leaves
`InProgress`. -/
theorem click_flag_ignore_condition (g : GameState) (x y : Nat) (c : Cell)
    (h : g.cellAt x y = some c) :
    (c.state = CellState.Mine → (g.click x y).game_condition = GameCondition.Lost) ∧
    (c.state = CellState.Mine → c.visibility ≠ CellVisibility.Flagged →
      g.flagged_count + 1 = g.bomb_count →
      (g.flag x y).game_condition = GameCondition.Won) := by
  constructor
  · intro hs
    rw [click_eq_of_cellAt h]
    obtain ⟨cs, cv⟩ := c
    cases hs
    cases cv <;> rfl
  · intro hs hv hcount
    rw [flag_eq_of_cellAt h, if_pos ⟨hs, hv⟩]
    show (if g.flagged_count + 1 = g.bomb_count then GameCondition.Won
      else g.game_condition) = GameCondition.Won
    rw [if_pos hcount]

/-- Claim C2, witness for the amended theorem: a lost 1×1 board whose mine is
then flagged becomes `Won`, and a won board whose mine is clicked becomes
`Lost`. -/
theorem click_flag_ignore_condition_witness :
    ((gMine1.flag 0 0).click 0 0).game_condition = GameCondition.Lost ∧
    (gMine1.flag 0 0).game_condition = GameCondition.Won := by
  have h := click_flag_ignore_condition (gMine1.flag 0 0) 0 0
    ⟨CellState.Mine, CellVisibility.Flagged⟩ (by decide)
  have h2 := click_flag_ignore_condition gMine1 0 0
    ⟨CellState.Mine, CellVisibility.Unknown⟩ (by decide)
  exact ⟨h.1 rfl, h2.2 rfl (by decide) (by decide)⟩

/-! ## Claim C10 — frame conditions of `flag` -/

/-- Claim C10: for an in-bounds coordinate, `flag` never modifies any cell's
hidden `state` and never modifies any cell other than the target: the grid
dimensions and `bomb_count` are unchanged, the mine layout (the map of all
`state` fields) is unchanged, the field is exactly the old field with the
target cell's visibility set to `Flagged`, and every other coordinate reads
the same cell as before. -/
theorem flag_frame (g : GameState) (x y : Nat) (c : Cell)
    (h : g.cellAt x y = some c) :
    (g.flag x y).width = g.width ∧
    (g.flag x y).height = g.height ∧
    (g.flag x y).bomb_count = g.bomb_count ∧
    (g.flag x y).field.map Cell.state = g.field.map Cell.state ∧
    (g.flag x y).field = g.field.set (y * g.width + x) ⟨c.state, CellVisibility.Flagged⟩ ∧
    (∀ x' y', ¬(x' = x ∧ y' = y) → (g.flag x y).cellAt x' y' = g.cellAt x' y') := by
  obtain ⟨⟨hx, hy⟩, hg⟩ := cellAt_eq_some.mp h
  rw [List.get?_eq_getElem?] at hg
  have hw : (g.flag x y).width = g.width := by
    rw [flag_eq_of_cellAt h]; split <;> rfl
  have hh : (g.flag x y).height = g.height := by
    rw [flag_eq_of_cellAt h]; split <;> rfl
  have hbc : (g.flag x y).bomb_count = g.bomb_count := by
    rw [flag_eq_of_cellAt h]; split <;> rfl
  have hfield : (g.flag x y).field =
      g.field.set (y * g.width + x) ⟨c.state, CellVisibility.Flagged⟩ := by
    rw [flag_eq_of_cellAt h]; split <;> rfl
  have hmap : (g.flag x y).field.map Cell.state = g.field.map Cell.state := by
    rw [hfield, List.map_set]
    have hms : (g.field.map Cell.state)[y * g.width + x]? = some c.state := by
      rw [List.getElem?_map, hg]; rfl
    exact set_getElem?_self _ _ _ hms
  refine ⟨hw, hh, hbc, hmap, hfield, ?_⟩
  intro x' y' hne
  unfold GameState.cellAt
  rw [hw, hh, hfield]
  by_cases hb : g.width ≤ x' ∨ g.height ≤ y'
  · rw [if_pos hb, if_pos hb]
  · rw [if_neg hb, if_neg hb]
    push_neg at hb
    rw [List.get?_eq_getElem?, List.get?_eq_getElem?, List.getElem?_set]
    have hne2 : ¬ (y * g.width + x = y' * g.width + x') := by
      intro heq
      obtain ⟨hx1, hy1⟩ := flatIndex_inj hx hb.1 heq.symm
      exact hne ⟨hx1, hy1⟩
    rw [if_neg hne2]

/-- Claim C10, witness at a concrete 2×2 board. -/
theorem flag_frame_witness :
    (g22F.flag 1 1).field = g22F.field.set 3 ⟨CellState.Mine, CellVisibility.Flagged⟩ ∧
    (g22F.flag 1 1).cellAt 0 0 = g22F.cellAt 0 0 ∧
    (g22F.flag 1 1).field.map Cell.state = g22F.field.map Cell.state := by
  have h := flag_frame g22F 1 1 ⟨CellState.Mine, CellVisibility.Unknown⟩ (by decide)
  exact ⟨h.2.2.2.2.1, h.2.2.2.2.2 0 0 (by decide), h.2.2.2.1⟩

/-! ## Claim C9 — the flag counter -/

/-- Replacing a list element by one with the same `p`-value keeps `countP`. -/
theorem countP_set_of_same {α : Type _} (p : α → Bool) (l : List α) (i : Nat)
    (a b : α) (hg : l[i]? = some b) (hpb : p a = p b) :
    (l.set i a).countP p = l.countP p := by
  obtain ⟨hlen, hget⟩ := List.getElem?_eq_some_iff.mp hg
  rw [List.countP_set p l i a hlen, hget, hpb]
  cases hb : p b
  · simp
  · have hpos : 0 < l.countP p :=
      List.countP_pos_iff.mpr ⟨b, List.getElem?_mem hg, hb⟩
    simp only [if_pos]
    omega

/-- Replacing a non-`p` element by a `p` element increments `countP`. -/
theorem countP_set_incr {α : Type _} (p : α → Bool) (l : List α) (i : Nat)
    (a b : α) (hg : l[i]? = some b) (hpb : p b = false) (hpa : p a = true) :
    (l.set i a).countP p = l.countP p + 1 := by
  obtain ⟨hlen, hget⟩ := List.getElem?_eq_some_iff.mp hg
  rw [List.countP_set p l i a hlen, hget, hpb, hpa]
  simp

/-- The counting invariant maintained by every board operation:
`bomb_count` equals the number of mines on the field and `flagged_count`
equals the number of flagged mines. -/
def CountInv (g : GameState) : Prop :=
  mineCount g.field = g.bomb_count ∧ g.flagged_count = flaggedMineCount g.field


/-- Specialisation of `countP_set_of_same` to `mineCount`. -/
theorem mineCount_set_of_same (l : List Cell) (i : Nat) (a b : Cell)
    (hg : l[i]? = some b) (hs : a.state = b.state) :
    mineCount (l.set i a) = mineCount l := by
  unfold mineCount
  exact countP_set_of_same _ _ _ _ _ hg (by simp [hs])

/-- Specialisation of `countP_set_of_same` to `flaggedMineCount`. -/
theorem flaggedMineCount_set_of_same (l : List Cell) (i : Nat) (a b : Cell)
    (hg : l[i]? = some b)
    (hq : (a.state = CellState.Mine ∧ a.visibility = CellVisibility.Flagged) ↔
          (b.state = CellState.Mine ∧ b.visibility = CellVisibility.Flagged)) :
    flaggedMineCount (l.set i a) = flaggedMineCount l := by
  unfold flaggedMineCount
  exact countP_set_of_same _ _ _ _ _ hg (decide_eq_decide.mpr hq)

/-- Specialisation of `countP_set_incr` to `flaggedMineCount`. -/
theorem flaggedMineCount_set_incr (l : List Cell) (i : Nat) (a b : Cell)
    (hg : l[i]? = some b)
    (hb : ¬(b.state = CellState.Mine ∧ b.visibility = CellVisibility.Flagged))
    (ha : a.state = CellState.Mine ∧ a.visibility = CellVisibility.Flagged) :
    flaggedMineCount (l.set i a) = flaggedMineCount l + 1 := by
  unfold flaggedMineCount
  exact countP_set_incr _ _ _ _ _ hg (decide_eq_false hb) (decide_eq_true ha)

theorem countInv_init {w h n : Nat} {g : GameState} (hI : InitState w h n g) :
    CountInv g := by
  obtain ⟨-, -, hbc, -, hfc, -, hvis, hmc⟩ := hI
  refine ⟨by rw [hmc, hbc], ?_⟩
  have hz : flaggedMineCount g.field = 0 := by
    unfold flaggedMineCount
    rw [List.countP_eq_zero]
    intro c hc
    simp only [decide_eq_true_eq, not_and]
    intro _
    rw [hvis c hc]
    intro hcontra
    cases hcontra
  rw [hz, hfc]

theorem countInv_flag (g : GameState) (x y : Nat) (h : CountInv g) :
    CountInv (g.flag x y) := by
  cases hc : g.cellAt x y with
  | none =>
    unfold GameState.flag
    rw [hc]
    exact h
  | some c =>
    obtain ⟨⟨hx, hy⟩, hg⟩ := cellAt_eq_some.mp hc
    rw [List.get?_eq_getElem?] at hg
    rw [flag_eq_of_cellAt hc]
    by_cases hP : c.state = CellState.Mine ∧ c.visibility ≠ CellVisibility.Flagged
    · rw [if_pos hP]
      constructor
      · show mineCount (g.field.set (y * g.width + x)
            ⟨c.state, CellVisibility.Flagged⟩) = g.bomb_count
        rw [mineCount_set_of_same _ _ ⟨c.state, CellVisibility.Flagged⟩ c hg rfl]
        exact h.1
      · show g.flagged_count + 1 = flaggedMineCount
            (g.field.set (y * g.width + x) ⟨c.state, CellVisibility.Flagged⟩)
        rw [flaggedMineCount_set_incr _ _ ⟨c.state, CellVisibility.Flagged⟩ c hg
          (fun hand => hP.2 hand.2) ⟨hP.1, rfl⟩, h.2]
    · rw [if_neg hP]
      have hv : c.state = CellState.Mine → c.visibility = CellVisibility.Flagged :=
        fun hs => not_not.mp (fun hnv => hP ⟨hs, hnv⟩)
      constructor
      · show mineCount (g.field.set (y * g.width + x)
            ⟨c.state, CellVisibility.Flagged⟩) = g.bomb_count
        rw [mineCount_set_of_same _ _ ⟨c.state, CellVisibility.Flagged⟩ c hg rfl]
        exact h.1
      · show g.flagged_count = flaggedMineCount
            (g.field.set (y * g.width + x) ⟨c.state, CellVisibility.Flagged⟩)
        rw [flaggedMineCount_set_of_same _ _ ⟨c.state, CellVisibility.Flagged⟩ c hg
          ⟨fun hand => ⟨hand.1, hv hand.1⟩, fun hand => ⟨hand.1, rfl⟩⟩]
        exact h.2

theorem countInv_click (g : GameState) (x y : Nat) (h : CountInv g) :
    CountInv (g.click x y) := by
  cases hc : g.cellAt x y with
  | none =>
    unfold GameState.click
    rw [hc]
    exact h
  | some c =>
    obtain ⟨⟨hx, hy⟩, hg⟩ := cellAt_eq_some.mp hc
    rw [List.get?_eq_getElem?] at hg
    rw [click_eq_of_cellAt hc]
    have hsame : ∀ g' : GameState, g'.field = g.field → g'.width = g.width →
        g'.bomb_count = g.bomb_count → g'.flagged_count = g.flagged_count →
        CountInv (g'.setCell x y c) := by
      intro g' hf hw hbc hfc
      have hself : g'.field.set (y * g'.width + x) c = g.field := by
        rw [hf, hw]
        exact set_getElem?_self _ _ _ hg
      constructor
      · show mineCount (g'.field.set (y * g'.width + x) c) = g'.bomb_count
        rw [hself, hbc]
        exact h.1
      · show g'.flagged_count = flaggedMineCount (g'.field.set (y * g'.width + x) c)
        rw [hself, hfc]
        exact h.2
    obtain ⟨cs, cv⟩ := c
    cases cs with
    | Mine => cases cv <;> exact hsame _ rfl rfl rfl rfl
    | Empty =>
      cases cv with
      | Unknown =>
        constructor
        · show mineCount (g.field.set (y * g.width + x)
              ⟨CellState.Empty, CellVisibility.Empty (g.clickMineCount x y)⟩) = g.bomb_count
          rw [mineCount_set_of_same _ _
            ⟨CellState.Empty, CellVisibility.Empty (g.clickMineCount x y)⟩
            ⟨CellState.Empty, CellVisibility.Unknown⟩ hg rfl]
          exact h.1
        · show g.flagged_count = flaggedMineCount (g.field.set (y * g.width + x)
              ⟨CellState.Empty, CellVisibility.Empty (g.clickMineCount x y)⟩)
          rw [flaggedMineCount_set_of_same _ _
            ⟨CellState.Empty, CellVisibility.Empty (g.clickMineCount x y)⟩
            ⟨CellState.Empty, CellVisibility.Unknown⟩ hg
            ⟨fun hand => absurd hand.1 (by intro hcontra; cases hcontra),
             fun hand => absurd hand.1 (by intro hcontra; cases hcontra)⟩]
          exact h.2
      | Flagged => exact hsame _ rfl rfl rfl rfl
      | Empty n => exact hsame _ rfl rfl rfl rfl

theorem countInv_step {g g' : GameState} (hs : Step g g') (h : CountInv g) :
    CountInv g' := by
  rcases hs with ⟨x, y, rfl⟩ | ⟨x, y, rfl⟩
  · exact countInv_click g x y h
  · exact countInv_flag g x y h

theorem countInv_reachable {g g' : GameState} (h0 : CountInv g)
    (hr : Reachable g g') : CountInv g' := by
  induction hr with
  | refl => exact h0
  | tail _ hstep ih => exact countInv_step hstep ih

theorem flagged_le_mines {g : GameState} (h : CountInv g) :
    g.flagged_count ≤ g.bomb_count := by
  rw [h.2, ← h.1]
  unfold flaggedMineCount mineCount
  refine List.countP_mono_left ?_
  intro c _ hc
  simp only [decide_eq_true_eq] at hc ⊢
  exact hc.1

/-- Claim C9: on every board reachable from a fresh board with
`bomb_count ≤ width * height`, `flagged_count` never exceeds `bomb_count`
(so `remaining_mines = bomb_count - flagged_count` never underflows);
`click` never changes `flagged_count`; `flag` changes it only by flagging a
not-yet-flagged mine cell, in which case it increments by one; and a flag
that brings the counter up to `bomb_count` sets the condition to `Won`. -/
theorem flagged_count_bounded (w h n : Nat) (g0 g : GameState)
    (_hn : n ≤ w * h) (h0 : InitState w h n g0) (hr : Reachable g0 g) :
    g.flagged_count ≤ g.bomb_count ∧
    g.remaining_mines + g.flagged_count = g.bomb_count ∧
    (∀ x y, (g.click x y).flagged_count = g.flagged_count) ∧
    (∀ x y, (g.flag x y).flagged_count = g.flagged_count ∨
      ∃ c, g.cellAt x y = some c ∧ c.state = CellState.Mine ∧
        c.visibility ≠ CellVisibility.Flagged ∧
        (g.flag x y).flagged_count = g.flagged_count + 1) ∧
    (∀ x y c, g.cellAt x y = some c → c.state = CellState.Mine →
      c.visibility ≠ CellVisibility.Flagged →
      (g.flag x y).flagged_count = g.bomb_count →
      (g.flag x y).game_condition = GameCondition.Won) := by
  have hInv : CountInv g := countInv_reachable (countInv_init h0) hr
  have hle : g.flagged_count ≤ g.bomb_count := flagged_le_mines hInv
  refine ⟨hle, ?_, ?_, ?_, ?_⟩
  · unfold GameState.remaining_mines
    omega
  · intro x y
    cases hc : g.cellAt x y with
    | none =>
      unfold GameState.click
      rw [hc]
    | some c =>
      rw [click_eq_of_cellAt hc]
      obtain ⟨cs, cv⟩ := c
      cases cs <;> cases cv <;> rfl
  · intro x y
    cases hc : g.cellAt x y with
    | none =>
      left
      unfold GameState.flag
      rw [hc]
    | some c =>
      by_cases hP : c.state = CellState.Mine ∧ c.visibility ≠ CellVisibility.Flagged
      · right
        exact ⟨c, rfl, hP.1, hP.2, by rw [flag_eq_of_cellAt hc, if_pos hP]; rfl⟩
      · left
        rw [flag_eq_of_cellAt hc, if_neg hP]
        rfl
  · intro x y c hc hs hv
    intro hcount
    rw [flag_eq_of_cellAt hc, if_pos ⟨hs, hv⟩] at hcount ⊢
    show (if g.flagged_count + 1 = g.bomb_count then GameCondition.Won
      else g.game_condition) = GameCondition.Won
    rw [if_pos (show g.flagged_count + 1 = g.bomb_count from hcount)]

/-- Claim C9, witness at the fresh 1×1 board `gMine1`. -/
theorem flagged_count_bounded_witness :
    gMine1.flagged_count ≤ gMine1.bomb_count ∧
    gMine1.remaining_mines + gMine1.flagged_count = gMine1.bomb_count ∧
    (gMine1.flag 0 0).game_condition = GameCondition.Won := by
  have hI : InitState 1 1 1 gMine1 := by
    unfold InitState
    refine ⟨rfl, rfl, rfl, rfl, rfl, by decide, by decide, by decide⟩
  have h := flagged_count_bounded 1 1 1 gMine1 gMine1 (by decide) hI
    Relation.ReflTransGen.refl
  exact ⟨h.1, h.2.1,
    h.2.2.2.2 0 0 ⟨CellState.Mine, CellVisibility.Unknown⟩ (by decide) rfl
      (by decide) (by decide)⟩

/-! ## Claim C1 — the `validate` oracle -/

/-- The number of mine-state cells among the in-bounds neighbors of `(x, y)`
on board `h` (the specification-side count the revealed clue is compared
against). -/
def countMineNeighbors (h : GameState) (x y : Nat) : Nat :=
  ((h.neighbors x y).filter fun e =>
    match h.cellAt e.1 e.2 with
    | some c => decide (c.state = CellState.Mine)
    | none => false).length

/-- The 0/1 sum computed inside `validate` equals the filtered neighbor
count. -/
theorem hypMineCount_eq_countMineNeighbors (h : GameState) (x y : Nat) :
    h.hypMineCount x y = countMineNeighbors h x y := by
  unfold GameState.hypMineCount countMineNeighbors GameState.cellAtD
  generalize h.neighbors x y = l
  induction l with
  | nil => rfl
  | cons e t ih =>
    rw [List.map_cons, List.sum_cons, List.filter_cons]
    cases hc : h.cellAt e.1 e.2 with
    | none =>
      have hd : ¬ defaultCell.state = CellState.Mine := by
        intro hcontra; cases hcontra
    
      simp [hc, hd, ih]
    | some c =>
      by_cases hm : c.state = CellState.Mine
      · simp [hc, hm, ih, Nat.add_comm]
      · simp [hc, hm, ih]

/-- Indexed characterisation of the `validate` loop. -/
theorem validateAux_iff (g h : GameState) :
    ∀ (l1 l2 : List Cell) (i : Nat), l1.length = l2.length →
    (validateAux g h i l1 l2 = true ↔
      ∀ j c n, l1[j]? = some c → c.visibility = CellVisibility.Empty n →
        h.hypMineCount ((i + j) % g.width) ((i + j) / g.width) = n) := by
  intro l1
  induction l1 with
  | nil =>
    intro l2 i _
    simp [validateAux]
  | cons c1 t1 ih =>
    intro l2 i hlen
    cases l2 with
    | nil => simp at hlen
    | cons c2 t2 =>
      have hlen' : t1.length = t2.length := by
        simpa using hlen
      have iht := ih t2 (i + 1) hlen'
      constructor
      · intro hv j c n hj hvis
        rw [show validateAux g h i (c1 :: t1) (c2 :: t2) =
            ((match c1.visibility with
              | CellVisibility.Empty n1 =>
                decide (n1 = h.hypMineCount (i % g.width) (i / g.width))
              | _ => true)
             && validateAux g h (i + 1) t1 t2) from rfl,
          Bool.and_eq_true] at hv
        obtain ⟨h1, h2⟩ := hv
        cases j with
        | zero =>
          rw [List.getElem?_cons_zero, Option.some_inj] at hj
          subst hj
          rw [hvis] at h1
          rw [Nat.add_zero]
          exact (of_decide_eq_true h1).symm
        | succ j' =>
          have hres := (iht.mp h2) j' c n (by simpa using hj) hvis
          rwa [show i + 1 + j' = i + (j' + 1) by omega] at hres
      · intro hall
        rw [show validateAux g h i (c1 :: t1) (c2 :: t2) =
            ((match c1.visibility with
              | CellVisibility.Empty n1 =>
                decide (n1 = h.hypMineCount (i % g.width) (i / g.width))
              | _ => true)
             && validateAux g h (i + 1) t1 t2) from rfl,
          Bool.and_eq_true]
        constructor
        · cases hvis : c1.visibility with
          | Empty n1 =>
            have hres := hall 0 c1 n1 (by simp) hvis
            rw [Nat.add_zero] at hres
            exact decide_eq_true hres.symm
          | Unknown => rfl
          | Flagged => rfl
        · refine iht.mpr (fun j c n hj hvis => ?_)
          have hres := hall (j + 1) c n (by simpa using hj) hvis
          rwa [show i + (j + 1) = i + 1 + j by omega] at hres

/-- Conversion between flat-index quantification and coordinate
quantification over the cells of a well-formed board. -/
theorem indexed_iff_xy (g : GameState) (hwf : g.WF) (P : Nat → Nat → Nat → Prop) :
    (∀ j c n, g.field[j]? = some c → c.visibility = CellVisibility.Empty n →
      P (j % g.width) (j / g.width) n) ↔
    (∀ x y c n, g.cellAt x y = some c → c.visibility = CellVisibility.Empty n →
      P x y n) := by
  constructor
  · intro hidx x y c n hc hvis
    obtain ⟨⟨hx, hy⟩, hg⟩ := cellAt_eq_some.mp hc
    rw [List.get?_eq_getElem?] at hg
    have hw : 0 < g.width := Nat.lt_of_le_of_lt (Nat.zero_le x) hx
    have hmod : (y * g.width + x) % g.width = x := by
      rw [Nat.mul_comm, Nat.mul_add_mod, Nat.mod_eq_of_lt hx]
    have hdiv : (y * g.width + x) / g.width = y := by
      rw [Nat.mul_comm, Nat.mul_add_div hw, Nat.div_eq_of_lt hx, Nat.add_zero]
    have hres := hidx (y * g.width + x) c n hg hvis
    rwa [hmod, hdiv] at hres
  · intro hxy j c n hj hvis
    have hlt : j < g.field.length := (List.getElem?_eq_some_iff.mp hj).1
    rw [hwf] at hlt
    have hw : 0 < g.width := by
      rcases Nat.eq_zero_or_pos g.width with hz | hp
      · rw [hz] at hlt; simp at hlt
      · exact hp
    have hx : j % g.width < g.width := Nat.mod_lt _ hw
    have hy : j / g.width < g.height := by
      rw [Nat.div_lt_iff_lt_mul hw]
      calc j < g.width * g.height := hlt
        _ = g.height * g.width := Nat.mul_comm _ _
    refine hxy (j % g.width) (j / g.width) c n ?_ hvis
    rw [cellAt_eq_some]
    refine ⟨⟨hx, hy⟩, ?_⟩
    rw [List.get?_eq_getElem?, Nat.div_add_mod' j g.width]
    exact hj

/-- The `validate` loop reads the real board only through the visibilities of
its cells (and its width). -/
theorem validateAux_vis_congr (g g' h : GameState) (hwidth : g'.width = g.width) :
    ∀ (l1 l1' l2 : List Cell) (i : Nat),
      l1.map Cell.visibility = l1'.map Cell.visibility →
      validateAux g' h i l1' l2 = validateAux g h i l1 l2 := by
  intro l1
  induction l1 with
  | nil =>
    intro l1' l2 i hm
    have hnil : l1' = [] := by simpa using hm.symm
    subst hnil
    rfl
  | cons c1 t1 ih =>
    intro l1' l2 i hm
    cases l1' with
    | nil => simp at hm
    | cons c1' t1' =>
      simp only [List.map_cons, List.cons.injEq] at hm
      obtain ⟨hv, ht⟩ := hm
      cases l2 with
      | nil => rfl
      | cons c2 t2 =>
        show ((match c1'.visibility with
            | CellVisibility.Empty n1 =>
              decide (n1 = h.hypMineCount (i % g'.width) (i / g'.width))
            | _ => true)
          && validateAux g' h (i + 1) t1' t2)
          = ((match c1.visibility with
            | CellVisibility.Empty n1 =>
              decide (n1 = h.hypMineCount (i % g.width) (i / g.width))
            | _ => true)
          && validateAux g h (i + 1) t1 t2)
        rw [← hv, hwidth, ih t1' t2 (i + 1) ht]

/-- Claim C1: on same-dimension well-formed boards, `validate g h` returns
true iff every revealed clue `n` on the real board `g` equals the number of
mine-state cells among that position's neighbors on the hypothetical board
`h` (false exactly when some revealed clue mismatches); and the result
depends only on the visibilities of `g`'s cells, never on their hidden
`state` — in particular not on the true state of `Unknown` or `Flagged`
cells. -/
theorem validate_spec (g h : GameState) (hwfg : g.WF) (hwfh : h.WF)
    (hw : h.width = g.width) (hh : h.height = g.height) :
    (g.validate h = true ↔
      ∀ x y c n, g.cellAt x y = some c → c.visibility = CellVisibility.Empty n →
        countMineNeighbors h x y = n) ∧
    (∀ g' : GameState, g'.width = g.width →
      g'.field.map Cell.visibility = g.field.map Cell.visibility →
      g'.validate h = g.validate h) := by
  constructor
  · have hlen : g.field.length = h.field.length := by
      rw [hwfg, hwfh, hw, hh]
    rw [GameState.validate, validateAux_iff g h g.field h.field 0 hlen]
    have hbr := indexed_iff_xy g hwfg (fun x y n => countMineNeighbors h x y = n)
    constructor
    · intro hidx
      refine hbr.mp ?_
      intro j c n hj hvis
      have hres := hidx j c n hj hvis
      rw [Nat.zero_add] at hres
      rw [← hypMineCount_eq_countMineNeighbors]
      exact hres
    · intro hxy j c n hj hvis
      rw [Nat.zero_add, hypMineCount_eq_countMineNeighbors]
      exact hbr.mpr hxy j c n hj hvis
  · intro g' hw' hvis
    unfold GameState.validate
    exact validateAux_vis_congr g g' h hw' g.field g'.field h.field 0 hvis.symm

/-- A 2×1 board with a revealed clue `1` at `(0,0)` and a mine at `(1,0)`. -/
def gVal : GameState :=
  ⟨[⟨CellState.Empty, CellVisibility.Empty 1⟩, ⟨CellState.Mine, CellVisibility.Unknown⟩],
   2, 1, GameCondition.InProgress, 1, 0⟩

/-- Claim C1, witness at a concrete pair of 2×1 boards. -/
theorem validate_spec_witness :
    ((gVal.validate gVal = true ↔
      ∀ x y c n, gVal.cellAt x y = some c → c.visibility = CellVisibility.Empty n →
        countMineNeighbors gVal x y = n) ∧
    (∀ g' : GameState, g'.width = gVal.width →
      g'.field.map Cell.visibility = gVal.field.map Cell.visibility →
      g'.validate gVal = gVal.validate gVal)) ∧
    gVal.validate gVal = true := by
  refine ⟨validate_spec gVal gVal ?_ ?_ rfl rfl, by decide⟩ <;>
    (unfold GameState.WF; decide)

/-! ## Combination iterator (src/lib.rs)

`CombinationIterator` enumerates r-element combinations of `{0,...,n-1}`.
The `next` method of the source indexes `self.state[0]` unconditionally
(the emptiness guard is commented out), so on an empty state vector it
panics; the embedding returns `StepResult.panic` there.  `usize` arithmetic
is modelled as `Nat` with truncated subtraction; the claims proved below
stay inside `r ≤ n`, where the source's subtractions do not underflow. -/

/-- The descending scan for `last_idx` in `CombinationIterator::next`
(src/lib.rs lines 32-46): starting from `r - 1`, decrement until position 0,
or stop one below the first position whose left neighbor still has a gap
(`copy[last_idx - 1] < copy[last_idx] - 1`). -/
def findLastIdx (copy : List Nat) : Nat → Nat
  | 0 => 0
  | li + 1 => if copy.getD li 0 < copy.getD (li + 1) 0 - 1 then li else findLastIdx copy li

/-- The trailing reset loop of `CombinationIterator::next` (src/lib.rs lines
50-53): `for idx in (last_idx + 1)..r { state[idx] = state[idx - 1] + 1 }`,
phrased with the remaining iteration count as fuel. -/
def resetLoop : List Nat → Nat → Nat → List Nat
  | st, _, 0 => st
  | st, idx, k + 1 => resetLoop (st.set idx (st.getD (idx - 1) 0 + 1)) (idx + 1) k

theorem getD_set (l : List Nat) (i j a : Nat) :
    (l.set i a).getD j 0 = if i = j ∧ i < l.length then a else l.getD j 0 := by
  rw [List.getD_eq_getElem?_getD, List.getElem?_set, List.getD_eq_getElem?_getD]
  by_cases hij : i = j
  · subst hij
    by_cases hlen : i < l.length
    · simp [hlen]
    · rw [if_pos rfl, if_neg hlen, if_neg (by intro hand; exact hlen hand.2),
        List.getElem?_eq_none (Nat.le_of_not_lt (by simpa using hlen))]
  · rw [if_neg hij, if_neg (by intro hand; exact hij hand.1)]

theorem getD_eq_zero_of_le (l : List Nat) (i : Nat) (h : l.length ≤ i) :
    l.getD i 0 = 0 := by
  rw [List.getD_eq_getElem?_getD, List.getElem?_eq_none h]
  rfl

theorem getLastD_eq_getD (l : List Nat) (_ : l ≠ []) :
    l.getLastD 0 = l.getD (l.length - 1) 0 := by
  rw [List.getLastD_eq_getLast?, List.getLast?_eq_getElem?, List.getD_eq_getElem?_getD]

theorem head?_eq_getD (l : List Nat) (hl : l ≠ []) : l.head? = some (l.getD 0 0) := by
  cases l with
  | nil => exact absurd rfl hl
  | cons a t => rfl

theorem findLastIdx_le (s : List Nat) : ∀ m, findLastIdx s m ≤ m := by
  intro m
  induction m with
  | zero => exact Nat.le_refl 0
  | succ li ih =>
    rw [findLastIdx]
    split
    · omega
    · omega

theorem findLastIdx_no_gap (s : List Nat) :
    ∀ m i, findLastIdx s m < i → i < m → ¬(s.getD i 0 < s.getD (i + 1) 0 - 1) := by
  intro m
  induction m with
  | zero => intro i _ h2; omega
  | succ li ih =>
    intro i h1 h2
    rw [findLastIdx] at h1
    by_cases hgap : s.getD li 0 < s.getD (li + 1) 0 - 1
    · rw [if_pos hgap] at h1
      omega
    · rw [if_neg hgap] at h1
      by_cases hil : i = li
      · subst hil; exact hgap
      · exact ih i h1 (by omega)

theorem findLastIdx_gap_or_zero (s : List Nat) :
    ∀ m, s.getD (findLastIdx s m) 0 < s.getD (findLastIdx s m + 1) 0 - 1 ∨
      findLastIdx s m = 0 := by
  intro m
  induction m with
  | zero => right; rfl
  | succ li ih =>
    rw [findLastIdx]
    split
    · next hgap => left; exact hgap
    · exact ih

theorem resetLoop_length : ∀ (k : Nat) (st : List Nat) (idx : Nat),
    (resetLoop st idx k).length = st.length := by
  intro k
  induction k with
  | zero => intro st idx; rfl
  | succ k ih =>
    intro st idx
    rw [resetLoop, ih, List.length_set]

theorem resetLoop_getD : ∀ (k : Nat) (st : List Nat) (idx : Nat),
    1 ≤ idx → idx + k ≤ st.length →
    ∀ i, (resetLoop st idx k).getD i 0 =
      if idx ≤ i ∧ i < idx + k then st.getD (idx - 1) 0 + (i - idx + 1)
      else st.getD i 0 := by
  intro k
  induction k with
  | zero =>
    intro st idx _ _ i
    rw [resetLoop, if_neg (by omega)]
  | succ k ih =>
    intro st idx hidx hlen i
    rw [resetLoop]
    have hidxlt : idx < st.length := by omega
    have hres := ih (st.set idx (st.getD (idx - 1) 0 + 1)) (idx + 1) (by omega)
      (by rw [List.length_set]; omega) i
    rw [hres]
    by_cases hcase : idx + 1 ≤ i ∧ i < idx + 1 + k
    · rw [if_pos hcase, if_pos (by omega)]
      rw [show idx + 1 - 1 = idx by omega, getD_set, if_pos ⟨rfl, hidxlt⟩]
      omega
    · rw [if_neg hcase]
      by_cases hi : idx = i
      · subst hi
        rw [getD_set, if_pos ⟨rfl, hidxlt⟩, if_pos (by omega)]
        omega
      · rw [getD_set, if_neg (by intro hand; exact hi hand.1),
          if_neg (by omega)]

/-- `CombinationIterator` from src/lib.rs. -/
structure CombinationIterator where
  state : List Nat
  n : Nat
  r : Nat
deriving DecidableEq, Repr

/-- `CombinationIterator::new` from src/lib.rs: the state starts as
`[0, 1, ..., r-1]`. -/
def CombinationIterator.new (n r : Nat) : CombinationIterator :=
  ⟨List.range r, n, r⟩

/-- Outcome of one `next()` call: `panic` models the source indexing
`self.state[0]` on an empty vector; `done` models returning `None`; `yield`
carries the produced combination and the successor iterator. -/
inductive StepResult where
  | panic : StepResult
  | done : StepResult
  | yield : List Nat → CombinationIterator → StepResult
deriving DecidableEq, Repr

/-- `CombinationIterator::next` from src/lib.rs (Iterator impl, lines
19-57): panic on empty state; `None` once `state[0] == 1 + n - r`; otherwise
clone the state as the produced value, then advance: increment the last
index if it can still grow, else find `last_idx` by the descending scan,
increment it and reset all indices to its right to consecutive values. -/
def CombinationIterator.next (it : CombinationIterator) : StepResult :=
  match it.state.head? with
  | none => StepResult.panic
  | some s0 =>
    if s0 = 1 + it.n - it.r then StepResult.done
    else
      let copy := it.state
      let last := copy.getLastD 0
      if last < it.n - 1 then
        StepResult.yield copy ⟨copy.set (copy.length - 1) (last + 1), it.n, it.r⟩
      else
        let j := findLastIdx copy (it.r - 1)
        StepResult.yield copy
          ⟨resetLoop (copy.set j (copy.getD j 0 + 1)) (j + 1) (it.r - (j + 1)), it.n, it.r⟩

/-- The states reachable by the iterator while it still produces values:
length `r`, strictly increasing, and entry `i` at most `n - r + i`. -/
def okState (n r : Nat) (s : List Nat) : Prop :=
  s.length = r ∧ (∀ i, i + 1 < r → s.getD i 0 < s.getD (i + 1) 0) ∧
  (∀ i, i < r → s.getD i 0 ≤ n - r + i)

theorem next_ok {n r : Nat} (hr : 1 ≤ r) (hrn : r ≤ n) (s : List Nat)
    (hs : okState n r s) :
    ∃ s' : List Nat,
      CombinationIterator.next ⟨s, n, r⟩ = StepResult.yield s ⟨s', n, r⟩ ∧
      (okState n r s' ∨ s'.head? = some (1 + n - r)) := by
  obtain ⟨hlen, hinc, hbnd⟩ := hs
  have hne : s ≠ [] := by
    intro hnil
    rw [hnil] at hlen
    simp at hlen
    omega
  have hhead : s.head? = some (s.getD 0 0) := head?_eq_getD s hne
  have hs0 : s.getD 0 0 ≤ n - r := by simpa using hbnd 0 (by omega)
  have hnext : CombinationIterator.next ⟨s, n, r⟩ =
      (if s.getD 0 0 = 1 + n - r then StepResult.done
       else if s.getLastD 0 < n - 1 then
         StepResult.yield s ⟨s.set (s.length - 1) (s.getLastD 0 + 1), n, r⟩
       else
         StepResult.yield s
           ⟨resetLoop (s.set (findLastIdx s (r - 1))
               (s.getD (findLastIdx s (r - 1)) 0 + 1))
             (findLastIdx s (r - 1) + 1) (r - (findLastIdx s (r - 1) + 1)), n, r⟩) := by
    unfold CombinationIterator.next
    rw [hhead]
  rw [hnext, if_neg (show ¬ s.getD 0 0 = 1 + n - r by omega)]
  have hglast : s.getLastD 0 = s.getD (r - 1) 0 := by
    rw [getLastD_eq_getD s hne, hlen]
  by_cases hlast : s.getLastD 0 < n - 1
  · -- increment the last index
    rw [if_pos hlast]
    rw [hglast] at hlast
    refine ⟨_, rfl, Or.inl ?_⟩
    rw [hlen, hglast]
    have hrl : r - 1 < s.length := by omega
    refine ⟨by rw [List.length_set, hlen], ?_, ?_⟩
    · intro i hi
      rw [getD_set, getD_set]
      have hinc_i := hinc i hi
      rw [if_neg (show ¬(r - 1 = i ∧ r - 1 < s.length) by omega)]
      by_cases h1 : r - 1 = i + 1
      · rw [if_pos ⟨h1, hrl⟩]
        have hax : s.getD (i + 1) 0 = s.getD (r - 1) 0 := by rw [h1]
        omega
      · rw [if_neg (show ¬(r - 1 = i + 1 ∧ r - 1 < s.length) by
          intro hand; exact h1 hand.1)]
        exact hinc_i
    · intro i hib
      rw [getD_set]
      by_cases h1 : r - 1 = i
      · rw [if_pos ⟨h1, hrl⟩]
        have hax : s.getD (r - 1) 0 = s.getD i 0 := by rw [h1]
        omega
      · rw [if_neg (show ¬(r - 1 = i ∧ r - 1 < s.length) by
          intro hand; exact h1 hand.1)]
        exact hbnd i hib
  · -- wrap: find the right-most index that can advance
    rw [if_neg hlast]
    rw [hglast] at hlast
    push_neg at hlast
    have hfr : s.getD (r - 1) 0 = n - 1 := by
      have := hbnd (r - 1) (by omega)
      omega
    set j := findLastIdx s (r - 1) with hj
    have hjle : j ≤ r - 1 := findLastIdx_le s (r - 1)
    have hng := findLastIdx_no_gap s (r - 1)
    have hgz := findLastIdx_gap_or_zero s (r - 1)
    have hcons : ∀ d, j + 1 + d < r → s.getD (j + 1 + d) 0 = s.getD (j + 1) 0 + d := by
      intro d
      induction d with
      | zero =>
        intro _
        rw [Nat.add_zero]
        omega
      | succ d ih =>
        intro hlt
        have h2 := ih (by omega)
        have hng' := hng (j + 1 + d) (by omega) (by omega)
        have hinc' := hinc (j + 1 + d) (by omega)
        have hstep : s.getD (j + 1 + d + 1) 0 = s.getD (j + 1 + d) 0 + 1 := by omega
        rw [show j + 1 + (d + 1) = j + 1 + d + 1 by omega, hstep, h2]
        omega
    have hjlt : j < s.length := by omega
    have hresetlen :
        (resetLoop (s.set j (s.getD j 0 + 1)) (j + 1) (r - (j + 1))).length = r := by
      rw [resetLoop_length, List.length_set, hlen]
    have hkey : ∀ i,
        (resetLoop (s.set j (s.getD j 0 + 1)) (j + 1) (r - (j + 1))).getD i 0 =
        if j + 1 ≤ i ∧ i < r then s.getD j 0 + 1 + (i - j)
        else if i = j then s.getD j 0 + 1 else s.getD i 0 := by
      intro i
      have hrl := resetLoop_getD (r - (j + 1)) (s.set j (s.getD j 0 + 1)) (j + 1)
        (by omega) (by rw [List.length_set, hlen]; omega) i
      rw [hrl]
      by_cases hc : j + 1 ≤ i ∧ i < j + 1 + (r - (j + 1))
      · rw [if_pos hc, if_pos (by omega)]
        rw [show j + 1 - 1 = j by omega, getD_set, if_pos ⟨rfl, hjlt⟩]
        omega
      · rw [if_neg hc, if_neg (by omega), getD_set]
        by_cases hij : i = j
        · rw [if_pos ⟨hij.symm, hjlt⟩, if_pos hij]
        · rw [if_neg (by intro hand; exact hij hand.1.symm), if_neg hij]
    by_cases hgap : s.getD j 0 < s.getD (j + 1) 0 - 1
    · -- a strict gap exists below the top run: the state stays a combination
      have hj1r : j + 1 < r := by
        by_contra hcon
        push_neg at hcon
        have hz : s.getD (j + 1) 0 = 0 := getD_eq_zero_of_le s (j + 1) (by omega)
        omega
      have hbj1 := hbnd (j + 1) (by omega)
      refine ⟨_, rfl, Or.inl ⟨hresetlen, ?_, ?_⟩⟩
      · intro i hi
        rw [hkey, hkey]
        by_cases hc1 : j + 1 ≤ i
        · rw [if_pos ⟨hc1, by omega⟩, if_pos ⟨by omega, by omega⟩]
          omega
        · push_neg at hc1
          by_cases hc2 : i = j
          · subst hc2
            rw [if_neg (by omega), if_pos rfl, if_pos ⟨by omega, by omega⟩]
            omega
          · rw [if_neg (by omega), if_neg hc2]
            by_cases hc3 : i + 1 = j
            · rw [if_neg (by omega), if_pos hc3]
              have hax : s.getD (i + 1) 0 = s.getD j 0 := by rw [hc3]
              have hinc_i := hinc i hi
              omega
            · rw [if_neg (by omega), if_neg hc3]
              exact hinc i hi
      · intro i hib
        rw [hkey]
        by_cases hc1 : j + 1 ≤ i
        · rw [if_pos ⟨hc1, hib⟩]
          omega
        · by_cases hc2 : i = j
          · subst hc2
            rw [if_neg (by omega), if_pos rfl]
            omega
          · rw [if_neg (by omega), if_neg hc2]
            exact hbnd i hib
    · -- no gap anywhere: the state was the last combination; head becomes 1+n-r
      have hjz : j = 0 := by
        rcases hgz with hg | hz
        · exact absurd hg hgap
        · exact hz
      refine ⟨_, rfl, Or.inr ?_⟩
      have hne2 : (resetLoop (s.set j (s.getD j 0 + 1)) (j + 1) (r - (j + 1))) ≠ [] := by
        intro hnil
        rw [hnil] at hresetlen
        simp at hresetlen
        omega
      rw [head?_eq_getD _ hne2, hkey 0]
      rw [hjz] at hkey hcons hgap ⊢
      rw [if_neg (by omega), if_pos rfl]
      have hf0 : s.getD 0 0 = n - r := by
        rcases Nat.lt_or_ge r 2 with hr1 | hr2
        · have hr1' : r = 1 := by omega
          subst hr1'
          simpa using hfr
        · have hinc0 := hinc 0 (by omega)
          have hcr : s.getD (0 + 1 + (r - 2)) 0 = s.getD (0 + 1) 0 + (r - 2) :=
            hcons (r - 2) (by omega)
          have hax : s.getD (0 + 1 + (r - 2)) 0 = s.getD (r - 1) 0 := by
            rw [show 0 + 1 + (r - 2) = r - 1 by omega]
          have hax2 : s.getD (0 + 1) 0 = s.getD 1 0 := by rw [Nat.zero_add]
          have hgap0 : ¬ (s.getD 0 0 < s.getD (0 + 1) 0 - 1) := hgap
          omega
      have hres : s.getD 0 0 + 1 = 1 + n - r := by omega
      rw [hres]

/-- How a fuelled enumeration of the iterator ended. -/
inductive RunEnd where
  | outOfFuel : RunEnd
  | panicked : RunEnd
  | finished : RunEnd
deriving DecidableEq, Repr

/-- Collect the values produced by repeatedly calling `next`, with fuel
bounding the number of calls (the source loop `for combination in iterator`
is unbounded; every terminating enumeration is reproduced by a large enough
fuel). -/
def CombinationIterator.run : Nat → CombinationIterator → List (List Nat) × RunEnd
  | 0, _ => ([], RunEnd.outOfFuel)
  | fuel + 1, it =>
    match it.next with
    | StepResult.panic => ([], RunEnd.panicked)
    | StepResult.done => ([], RunEnd.finished)
    | StepResult.yield v it' =>
      let p := CombinationIterator.run fuel it'
      (v :: p.1, p.2)

theorem next_done (s : List Nat) (n r s0 : Nat) (hh : s.head? = some s0)
    (ht : s0 = 1 + n - r) : CombinationIterator.next ⟨s, n, r⟩ = StepResult.done := by
  unfold CombinationIterator.next
  rw [hh]
  exact if_pos ht

theorem run_succ_yield (fuel : Nat) (it : CombinationIterator) (v : List Nat)
    (it' : CombinationIterator) (h : it.next = StepResult.yield v it') :
    CombinationIterator.run (fuel + 1) it =
      (v :: (CombinationIterator.run fuel it').1,
       (CombinationIterator.run fuel it').2) := by
  show (match it.next with
    | StepResult.panic => (([] : List (List Nat)), RunEnd.panicked)
    | StepResult.done => ([], RunEnd.finished)
    | StepResult.yield v it' =>
      let p := CombinationIterator.run fuel it'
      (v :: p.1, p.2)) = _
  rw [h]

theorem run_succ_done (fuel : Nat) (it : CombinationIterator)
    (h : it.next = StepResult.done) :
    CombinationIterator.run (fuel + 1) it = ([], RunEnd.finished) := by
  show (match it.next with
    | StepResult.panic => (([] : List (List Nat)), RunEnd.panicked)
    | StepResult.done => ([], RunEnd.finished)
    | StepResult.yield v it' =>
      let p := CombinationIterator.run fuel it'
      (v :: p.1, p.2)) = _
  rw [h]

theorem range_getD (r : Nat) : ∀ i, (List.range r).getD i 0 = if i < r then i else 0 := by
  intro i
  by_cases hi : i < r
  · rw [List.getD_eq_getElem?_getD, List.getElem?_range hi, if_pos hi]
    rfl
  · rw [getD_eq_zero_of_le _ _ (by simpa using Nat.le_of_not_lt hi), if_neg hi]

theorem okState_range (n r : Nat) : okState n r (List.range r) := by
  refine ⟨List.length_range r, ?_, ?_⟩
  · intro i hi
    rw [range_getD, range_getD, if_pos (by omega), if_pos hi]
    omega
  · intro i hi
    rw [range_getD, if_pos hi]
    omega

theorem run_ok {n r : Nat} (hr : 1 ≤ r) (hrn : r ≤ n) :
    ∀ (fuel : Nat) (s : List Nat),
      (okState n r s ∨ s.head? = some (1 + n - r)) →
      (∀ v ∈ (CombinationIterator.run fuel ⟨s, n, r⟩).1, okState n r v) ∧
      (CombinationIterator.run fuel ⟨s, n, r⟩).2 ≠ RunEnd.panicked := by
  intro fuel
  induction fuel with
  | zero =>
    intro s _
    rw [show CombinationIterator.run 0 (⟨s, n, r⟩ : CombinationIterator)
      = ([], RunEnd.outOfFuel) from rfl]
    refine ⟨?_, ?_⟩
    · intro v hv
      simp at hv
    · simp
  | succ fuel ih =>
    intro s hok
    rcases hok with hok | hterm
    · obtain ⟨s', hnext, hok'⟩ := next_ok hr hrn s hok
      rw [run_succ_yield fuel _ s ⟨s', n, r⟩ hnext]
      obtain ⟨ihm, ihp⟩ := ih s' hok'
      refine ⟨?_, ihp⟩
      intro v hv
      rcases List.mem_cons.mp hv with hv | hv
      · rw [hv]; exact hok
      · exact ihm v hv
    · have hne : s ≠ [] := by
        intro hnil
        rw [hnil] at hterm
        cases hterm
      have hdone := next_done s n r (1 + n - r)
        (by rw [head?_eq_getD s hne] at hterm ⊢; exact hterm) rfl
      rw [run_succ_done fuel _ hdone]
      refine ⟨?_, ?_⟩
      · intro v hv
        simp at hv
      · simp

theorem findLastIdx_range (r : Nat) : ∀ m, findLastIdx (List.range r) m = 0 := by
  intro m
  induction m with
  | zero => rfl
  | succ li ih =>
    rw [findLastIdx, if_neg, ih]
    rw [range_getD, range_getD]
    by_cases h1 : li < r
    · by_cases h2 : li + 1 < r
      · rw [if_pos h1, if_pos h2]; omega
      · rw [if_pos h1, if_neg h2]; omega
    · rw [if_neg h1, if_neg (by omega)]; omega

theorem next_new_rr (r : Nat) (hr : 1 ≤ r) :
    ∃ s', CombinationIterator.next ⟨List.range r, r, r⟩ =
      StepResult.yield (List.range r) ⟨s', r, r⟩ ∧ s'.head? = some 1 := by
  have hne : (List.range r) ≠ [] := by
    intro hnil
    have hlr : (List.range r).length = r := List.length_range r
    rw [hnil] at hlr
    simp at hlr
    omega
  have hhead : (List.range r).head? = some ((List.range r).getD 0 0) :=
    head?_eq_getD _ hne
  have hnext : CombinationIterator.next ⟨List.range r, r, r⟩ =
      (if (List.range r).getD 0 0 = 1 + r - r then StepResult.done
       else if (List.range r).getLastD 0 < r - 1 then
         StepResult.yield (List.range r)
           ⟨(List.range r).set ((List.range r).length - 1) ((List.range r).getLastD 0 + 1), r, r⟩
       else
         StepResult.yield (List.range r)
           ⟨resetLoop ((List.range r).set (findLastIdx (List.range r) (r - 1))
               ((List.range r).getD (findLastIdx (List.range r) (r - 1)) 0 + 1))
             (findLastIdx (List.range r) (r - 1) + 1)
             (r - (findLastIdx (List.range r) (r - 1) + 1)), r, r⟩) := by
    unfold CombinationIterator.next
    rw [hhead]
  have h0 : (List.range r).getD 0 0 = 0 := by rw [range_getD, if_pos (by omega)]
  have hglast : (List.range r).getLastD 0 = r - 1 := by
    rw [getLastD_eq_getD _ hne, List.length_range, range_getD, if_pos (by omega)]
  rw [hnext, if_neg (by omega), hglast, if_neg (by omega), findLastIdx_range]
  refine ⟨_, rfl, ?_⟩
  have hlenres : (resetLoop ((List.range r).set 0 ((List.range r).getD 0 0 + 1)) (0 + 1)
      (r - (0 + 1))).length = r := by
    rw [resetLoop_length, List.length_set, List.length_range]
  have hne2 : (resetLoop ((List.range r).set 0 ((List.range r).getD 0 0 + 1)) (0 + 1)
      (r - (0 + 1))) ≠ [] := by
    intro hnil
    rw [hnil] at hlenres
    simp at hlenres
    omega
  rw [head?_eq_getD _ hne2]
  have hv : (resetLoop ((List.range r).set 0 ((List.range r).getD 0 0 + 1)) (0 + 1)
      (r - (0 + 1))).getD 0 0 = 1 := by
    rw [resetLoop_getD (r - (0 + 1)) _ (0 + 1) (by omega)
      (by rw [List.length_set, List.length_range]; omega) 0]
    rw [if_neg (by omega), getD_set,
      if_pos ⟨rfl, by rw [List.length_range]; omega⟩, h0]
  rw [hv]

theorem run_new_rr (r : Nat) (hr : 1 ≤ r) :
    CombinationIterator.run 2 ⟨List.range r, r, r⟩ =
      ([List.range r], RunEnd.finished) := by
  obtain ⟨s', hnext, hhead⟩ := next_new_rr r hr
  have hdone : CombinationIterator.next ⟨s', r, r⟩ = StepResult.done :=
    next_done s' r r 1 hhead (by omega)
  rw [show (2 : Nat) = 1 + 1 from rfl, run_succ_yield 1 _ _ _ hnext,
    run_succ_done 0 _ hdone]

/-- With `r = 0` the state vector is empty and `next` panics immediately
(`self.state[0]` in the source). -/
theorem new_n_zero_panics (n : Nat) :
    CombinationIterator.next ⟨List.range 0, n, 0⟩ = StepResult.panic := rfl

/-- `windows(2).map(|w| w[1] - w[0])` from `educated_guess` (src/main.rs
line 255) and the `test_mine_count_partitions` test (src/lib.rs line 83). -/
def windowDiffs : List Nat → List Nat
  | a :: b :: rest => (b - a) :: windowDiffs (b :: rest)
  | _ => []

/-- The per-group mine counts derived from a combination of cut points:
`partition.insert(0, 0); partition.push(remaining_mines);` followed by the
consecutive differences (src/main.rs lines 252-255). -/
def mineCounts (total : Nat) (combo : List Nat) : List Nat :=
  windowDiffs (0 :: (combo ++ [total]))

theorem windowDiffs_length : ∀ l : List Nat, (windowDiffs l).length = l.length - 1 := by
  intro l
  induction l with
  | nil => rfl
  | cons a t ih =>
    cases t with
    | nil => rfl
    | cons b rest =>
      show ((b - a) :: windowDiffs (b :: rest)).length = (a :: b :: rest).length - 1
      rw [List.length_cons, ih]
      simp

theorem windowDiffs_sum : ∀ (l : List Nat) (a b : Nat),
    List.Chain' (· ≤ ·) (a :: l) → (a :: l).getLast? = some b →
    (windowDiffs (a :: l)).sum + a = b := by
  intro l
  induction l with
  | nil =>
    intro a b _ hlast
    simp at hlast
    show 0 + a = b
    omega
  | cons c rest ih =>
    intro a b hch hlast
    rw [List.chain'_cons] at hch
    have hstep := ih c b hch.2 (by rwa [List.getLast?_cons_cons] at hlast)
    show (c - a) + (windowDiffs (c :: rest)).sum + a = b
    have hab : a ≤ c := hch.1
    omega

theorem chain'_of_getD (R : Nat → Nat → Prop) : ∀ (l : List Nat),
    (∀ i, i + 1 < l.length → R (l.getD i 0) (l.getD (i + 1) 0)) → List.Chain' R l := by
  intro l
  induction l with
  | nil => exact fun _ => List.chain'_nil
  | cons a t ih =>
    intro h
    cases t with
    | nil => exact List.chain'_singleton a
    | cons b rest =>
      rw [List.chain'_cons]
      refine ⟨h 0 (by simp), ih ?_⟩
      intro i hi
      exact h (i + 1) (by simpa using Nat.succ_lt_succ hi)

theorem mineCounts_of_okState {T r : Nat} (combo : List Nat) (hrT : r ≤ T)
    (hok : okState T r combo) :
    (mineCounts T combo).length = r + 1 ∧ (mineCounts T combo).sum = T := by
  obtain ⟨hlen, hinc, hbnd⟩ := hok
  have hchain : List.Chain' (· ≤ ·) (combo ++ [T]) := by
    rw [List.chain'_append]
    refine ⟨(chain'_of_getD (· < ·) combo (fun i hi => hinc i (by omega))).imp
      (fun _ _ hab => Nat.le_of_lt hab), List.chain'_singleton T, ?_⟩
    intro x hx y hy
    simp only [List.head?_cons, Option.mem_def, Option.some_inj] at hy
    subst hy
    rw [List.getLast?_eq_getElem?, Option.mem_def] at hx
    have hcne : combo ≠ [] := by
      intro hnil
      rw [hnil] at hx
      simp at hx
    have hlpos : 0 < combo.length := List.length_pos.mpr hcne
    have hgd : combo.getD (combo.length - 1) 0 = x := by
      rw [List.getD_eq_getElem?_getD, hx]
      rfl
    have hb := hbnd (combo.length - 1) (by omega)
    omega
  have hchain0 : List.Chain' (· ≤ ·) (0 :: (combo ++ [T])) := by
    rw [List.chain'_cons']
    exact ⟨fun b _ => Nat.zero_le b, hchain⟩
  have hlast : (combo ++ [T]).getLast? = some T := by
    rw [List.getLast?_concat]
  have hsum := windowDiffs_sum (combo ++ [T]) 0 T hchain0 (by
    cases combo with
    | nil => rfl
    | cons a t =>
      rw [List.cons_append, List.getLast?_cons_cons]
      rw [List.cons_append] at hlast
      exact hlast)
  constructor
  · unfold mineCounts
    rw [windowDiffs_length]
    simp
    omega
  · unfold mineCounts
    omega

/-! ## Claims C4, C5, C6 — the combination/partition generator -/

/-- Lexicographic strict order on combinations, as a boolean test. -/
def lexLt : List Nat → List Nat → Bool
  | _, [] => false
  | [], _ :: _ => true
  | a :: as, b :: bs => if a < b then true else if a = b then lexLt as bs else false

/-- All adjacent pairs of a list satisfy `f`. -/
def chainB (f : List Nat → List Nat → Bool) : List (List Nat) → Bool
  | [] => true
  | [_] => true
  | a :: b :: rest => f a b && chainB f (b :: rest)

/-- A strictly increasing list of naturals, as a boolean test. -/
def chainNatLt : List Nat → Bool
  | [] => true
  | [_] => true
  | a :: b :: rest => decide (a < b) && chainNatLt (b :: rest)

set_option maxRecDepth 10000

/-- Claim C4: for `1 ≤ r ≤ n` the iterator's first produced value is
`[0, 1, ..., r-1]`; `next` returns `None` exactly when the left-most index
has reached `1 + n - r` (i.e. would have to exceed `n - r`); and for
`n = 10, r = 3` the full enumeration yields exactly `C(10,3) = 120`
combinations, each a strictly increasing 3-element sequence over
`{0,...,9}`, in strictly lexicographic order (hence without duplicates),
the first being `[0,1,2]` and the last `[7,8,9]`, and then terminates. -/
theorem combination_iterator_spec (n r : Nat) (hr : 1 ≤ r) (hrn : r ≤ n) :
    (∃ it', (CombinationIterator.new n r).next =
      StepResult.yield (List.range r) it') ∧
    (∀ (it : CombinationIterator) (s0 : Nat) (rest : List Nat),
      it.state = s0 :: rest →
      (it.next = StepResult.done ↔ s0 = 1 + it.n - it.r)) ∧
    (((CombinationIterator.new 10 3).run 121).2 = RunEnd.finished ∧
     ((CombinationIterator.new 10 3).run 121).1.length = 120 ∧
     ((CombinationIterator.new 10 3).run 121).1.head? = some [0, 1, 2] ∧
     ((CombinationIterator.new 10 3).run 121).1.getLast? = some [7, 8, 9] ∧
     chainB lexLt ((CombinationIterator.new 10 3).run 121).1 = true ∧
     (((CombinationIterator.new 10 3).run 121).1.all fun l =>
       decide (l.length = 3) && chainNatLt l && l.all fun v => decide (v < 10)) = true ∧
     ((CombinationIterator.new 10 3).run 121).1.Nodup) := by
  refine ⟨?_, ?_, by decide, by decide, by decide, by decide, by decide, by decide,
    by decide⟩
  · obtain ⟨s', hnext, -⟩ := next_ok hr hrn (List.range r) (okState_range n r)
    exact ⟨⟨s', n, r⟩, hnext⟩
  · intro it s0 rest hst
    constructor
    · intro hdone
      unfold CombinationIterator.next at hdone
      rw [hst] at hdone
      simp only [List.head?_cons] at hdone
      by_cases hc : s0 = 1 + it.n - it.r
      · exact hc
      · rw [if_neg hc] at hdone
        split at hdone <;> cases hdone
    · intro hc
      have hhead : it.state.head? = some s0 := by rw [hst]; rfl
      exact next_done it.state it.n it.r s0 hhead hc

/-- Claim C4, witness at `n = 10, r = 3`. -/
theorem combination_iterator_spec_witness :
    (∃ it', (CombinationIterator.new 10 3).next =
      StepResult.yield (List.range 3) it') ∧
    ((CombinationIterator.new 10 3).run 121).1.length = 120 := by
  have h := combination_iterator_spec 10 3 (by decide) (by decide)
  exact ⟨h.1, h.2.2.2.1⟩

/-- Claim C5: the `r = 0` half of the claim fails on the code — for every
`n`, `CombinationIterator::new(n, 0)` has an empty state vector and the
first `next()` call indexes `self.state[0]` and panics (the emptiness guard
in the source is commented out), instead of producing one empty combination.
The `n = r` half holds for every `r ≥ 1`: exactly the single full-range
combination `[0, ..., r-1]` is produced and enumeration then terminates
cleanly. -/
theorem combination_iterator_edge_cases :
    (∀ n, (CombinationIterator.new n 0).next = StepResult.panic) ∧
    (∀ r, 1 ≤ r → (CombinationIterator.new r r).run 2 =
      ([List.range r], RunEnd.finished)) :=
  ⟨fun n => new_n_zero_panics n, fun r hr => run_new_rr r hr⟩

/-- Claim C5, witness at `n = 5, r = 0` and `r = 3`. -/
theorem combination_iterator_edge_cases_witness :
    (CombinationIterator.new 5 0).next = StepResult.panic ∧
    (CombinationIterator.new 3 3).run 2 = ([[0, 1, 2]], RunEnd.finished) := by
  have h := combination_iterator_edge_cases
  refine ⟨h.1 5, ?_⟩
  rw [h.2 3 (by decide)]
  rfl

/-- Claim C6: every combination of `k - 1` cut points produced by the
generator over `{0, ..., total-1}`, after prepending `0`, appending the
total and taking consecutive differences, yields exactly `k` per-group mine
counts summing exactly to the total (no subtraction underflows, because
every produced combination is strictly increasing and bounded by the
total). -/
theorem partition_counts (T k fuel : Nat) (combo : List Nat)
    (hk : 2 ≤ k) (hkT : k - 1 ≤ T)
    (hmem : combo ∈ ((CombinationIterator.new T (k - 1)).run fuel).1) :
    (mineCounts T combo).length = k ∧ (mineCounts T combo).sum = T := by
  have hok := (@run_ok T (k - 1) (by omega) hkT fuel (List.range (k - 1))
    (Or.inl (okState_range T (k - 1)))).1 combo hmem
  have hmc := mineCounts_of_okState combo hkT hok
  exact ⟨by rw [hmc.1]; omega, hmc.2⟩

/-- Claim C6, witness: the 3-group split of 10 mines at the cut-point
combination `[0, 1]`. -/
theorem partition_counts_witness :
    (mineCounts 10 [0, 1]).length = 3 ∧ (mineCounts 10 [0, 1]).sum = 10 :=
  partition_counts 10 3 50 [0, 1] (by decide) (by decide) (by decide)

/-! ## Claim C8 — strategy frontier updates (src/solver.rs)

`BijectionDetection::update` and `ExhaustedCellDetection::update` have
textually identical bodies in the source; both are embedded through
`strategyUpdateCells`.  `Vec::swap_remove` is `listSwapRemove`; the final
clean-up loop (collect the indices of `None` entries, then `swap_remove`
them in reverse order) is `removeNones`. -/

/-- `Event` from src/game.rs. -/
inductive Event where
  | Click : Nat × Nat → Event
  | Flag : Nat × Nat → Event
  | None : Event
deriving DecidableEq, Repr

/-- `Vec::swap_remove(i)`: replace the element at `i` with the last element
and shrink by one.  (Out-of-range `i` panics in Rust; all call sites in the
source are in range, and the embedding returns the list unchanged there.) -/
def listSwapRemove {α : Type _} (l : List α) (i : Nat) : List α :=
  if i < l.length then
    match l.getLast? with
    | some a => (l.set i a).dropLast
    | none => l
  else l

/-- The clean-up loop at the end of both `update` implementations
(src/solver.rs lines 133-144 and 267-278): push the index of every `None`
entry, then `swap_remove` those indices in reverse order. -/
def removeNones {α : Type _} (cells : List (Option α)) : List (Option α) :=
  ((cells.enum.filter fun p => p.2.isNone).map Prod.fst).reverse.foldl
    (fun l i => listSwapRemove l i) cells

/-- The position test `pos.0 == x && pos.1 == y` of the `Flag` arm. -/
def matchesPos (pos : Nat × Nat) (e : Nat × Nat × Cell) : Bool :=
  decide (pos.1 = e.1) && decide (pos.2 = e.2.1)

/-- The event-processing body shared by both strategies' `update`
(src/solver.rs lines 105-144 and 239-278): a `Flag` event looks up the index
of the first matching entry in the `filter_map`-compressed view of
`cells_of_interest` and `swap_remove`s that index; a `Click` event pushes
the clicked cell and all its neighbors; then `None` entries are removed. -/
def strategyUpdateCells (g : GameState) (event : Event)
    (cells : List (Option (Nat × Nat × Cell))) : List (Option (Nat × Nat × Cell)) :=
  removeNones
    (match event with
     | Event.Flag pos =>
       match (cells.filterMap id).findIdx? (fun e => matchesPos pos e) with
       | some delete_idx => listSwapRemove cells delete_idx
       | none => cells
     | Event.Click pos =>
       (cells ++ [some (pos.1, pos.2, g.cellAtD pos.1 pos.2)]) ++
         ((g.neighbors pos.1 pos.2).map fun q => some (q.1, q.2, g.cellAtD q.1 q.2))
     | Event.None => cells)

/-- `BijectionDetection` from src/solver.rs. -/
structure BijectionDetection where
  initialized : Bool
  cells_of_interest : List (Option (Nat × Nat × Cell))
deriving DecidableEq, Repr

/-- `BijectionDetection::update`: the first call only flips `initialized`;
later calls process the event. -/
def BijectionDetection.update (s : BijectionDetection) (g : GameState)
    (event : Event) : BijectionDetection :=
  if s.initialized = false then { s with initialized := true }
  else { s with cells_of_interest := strategyUpdateCells g event s.cells_of_interest }

/-- `ExhaustedCellDetection` from src/solver.rs. -/
structure ExhaustedCellDetection where
  initialized : Bool
  cells_of_interest : List (Option (Nat × Nat × Cell))
deriving DecidableEq, Repr

/-- `ExhaustedCellDetection::update` (same body as
`BijectionDetection::update` in the source). -/
def ExhaustedCellDetection.update (s : ExhaustedCellDetection) (g : GameState)
    (event : Event) : ExhaustedCellDetection :=
  if s.initialized = false then { s with initialized := true }
  else { s with cells_of_interest := strategyUpdateCells g event s.cells_of_interest }

/-- `swap_remove` at an in-range index is a permutation of plain removal
at that index. -/
theorem swapRemove_perm_eraseIdx {α : Type _} :
    ∀ (l : List α) (i : Nat), i < l.length →
    (listSwapRemove l i).Perm (l.eraseIdx i) := by
  intro l
  induction l with
  | nil => intro i hi; simp at hi
  | cons a t ih =>
    intro i hi
    cases i with
    | zero =>
      cases t with
      | nil => exact List.Perm.refl _
      | cons b t' =>
        have hne : (b :: t') ≠ [] := by simp
        have hlast : (a :: b :: t').getLast? = some ((b :: t').getLast hne) := by
          rw [List.getLast?_cons_cons, List.getLast?_eq_getLast _ hne]
        show (listSwapRemove (a :: b :: t') 0).Perm (b :: t')
        unfold listSwapRemove
        rw [if_pos (by simp), hlast]
        show ((((b :: t').getLast hne) :: b :: t').dropLast).Perm (b :: t')
        rw [List.dropLast_cons_of_ne_nil hne]
        have hsplit : (b :: t').dropLast ++ [(b :: t').getLast hne] = b :: t' :=
          List.dropLast_append_getLast hne
        have hperm := (List.perm_append_singleton ((b :: t').getLast hne)
          ((b :: t').dropLast)).symm
        rw [hsplit] at hperm
        exact hperm
    | succ i' =>
      have hne : t ≠ [] := by
        intro hnil
        rw [hnil] at hi
        simp at hi
      have hi' : i' < t.length := by
        rw [List.length_cons] at hi
        omega
      obtain ⟨gt, hgt⟩ : ∃ gt, t.getLast? = some gt := by
        cases t with
        | nil => exact absurd rfl hne
        | cons c t'' => exact ⟨_, List.getLast?_eq_getLast _ (by simp)⟩
      have hlast : (a :: t).getLast? = some gt := by
        cases t with
        | nil => exact absurd rfl hne
        | cons c t'' => rw [List.getLast?_cons_cons]; exact hgt
      show (listSwapRemove (a :: t) (i' + 1)).Perm (a :: t.eraseIdx i')
      unfold listSwapRemove
      rw [if_pos hi, hlast]
      show (((a :: t).set (i' + 1) gt).dropLast).Perm (a :: t.eraseIdx i')
      rw [List.set_cons_succ]
      have hsetne : t.set i' gt ≠ [] := by
        intro hnil
        have hl := List.length_set t i' gt
        rw [hnil] at hl
        simp at hl
        omega
      rw [List.dropLast_cons_of_ne_nil hsetne]
      refine List.Perm.cons a ?_
      have hsub := ih i' hi'
      unfold listSwapRemove at hsub
      rw [if_pos hi', hgt] at hsub
      exact hsub

/-- The clean-up loop is the identity on a frontier without `None`
entries. -/
theorem removeNones_of_all_some {α : Type _} (cells : List (Option α))
    (h : ∀ e ∈ cells, e.isSome = true) : removeNones cells = cells := by
  unfold removeNones
  have hnil : (cells.enum.filter fun p => p.2.isNone) = [] := by
    rw [List.filter_eq_nil_iff]
    intro p hp
    have hmem := @List.mem_enum _ p.2 p.1 cells hp
    have hsome := h p.2 (by rw [hmem.2]; exact List.getElem_mem hmem.1)
    cases hval : p.2 with
    | none =>
      rw [hval] at hsome
      simp at hsome
    | some v => simp [hval]
  rw [hnil]
  rfl

/-- Claim C8, counterexample: on an initialized strategy whose frontier holds
entries at `(0,0)` and `(1,1)` of the 2×2 board `g22F`, a `Flag 00` event
leaves only the `(1,1)` entry: the flagged cell is removed but none of the
in-bounds neighbors of `(0,0)` (such as `(0,1)`) is added, contradicting the
claim that a `Flag` event adds all of the flagged cell's neighbors.  The
same holds for `ExhaustedCellDetection`. -/
theorem flag_update_adds_no_neighbors :
    (BijectionDetection.update
      ⟨true, [some (0, 0, ⟨CellState.Empty, CellVisibility.Empty 1⟩),
              some (1, 1, ⟨CellState.Mine, CellVisibility.Unknown⟩)]⟩
      g22F (Event.Flag (0, 0))).cells_of_interest =
      [some (1, 1, ⟨CellState.Mine, CellVisibility.Unknown⟩)] ∧
    (ExhaustedCellDetection.update
      ⟨true, [some (0, 0, ⟨CellState.Empty, CellVisibility.Empty 1⟩),
              some (1, 1, ⟨CellState.Mine, CellVisibility.Unknown⟩)]⟩
      g22F (Event.Flag (0, 0))).cells_of_interest =
      [some (1, 1, ⟨CellState.Mine, CellVisibility.Unknown⟩)] ∧
    (0, 1) ∈ g22F.neighbors 0 0 := by
  decide


/-- `filterMap id` preserves the length of a list without `none`
entries. -/
theorem filterMap_id_length_of_all_some {α : Type _} :
    ∀ (l : List (Option α)), (∀ e ∈ l, e.isSome = true) →
    (l.filterMap id).length = l.length := by
  intro l
  induction l with
  | nil => intro _; rfl
  | cons e t ih =>
    intro h
    have he := h e (by simp)
    cases e with
    | none => simp at he
    | some v =>
      have ht := ih fun x hx => h x (List.mem_cons_of_mem _ hx)
      simp only [List.filterMap_cons, id, List.length_cons]
      rw [ht]

/-- Claim C8 (amended): on an initialized strategy whose frontier has no
pending `None` placeholders, a `Flag pos` event removes exactly the first
frontier entry whose coordinates equal `pos` (by `swap_remove`, so up to
permutation of the remaining entries) and adds nothing — in particular it
does not add the neighbors of `pos`; when no entry matches, the frontier is
unchanged.  The last two conjuncts tie this to both strategies, whose
`update` bodies are identical in the source. -/
theorem flag_update_removes_only (g : GameState) (pos : Nat × Nat)
    (cells : List (Option (Nat × Nat × Cell)))
    (hall : ∀ e ∈ cells, e.isSome = true) :
    ((∀ e ∈ strategyUpdateCells g (Event.Flag pos) cells, e ∈ cells) ∧
     (match (cells.filterMap id).findIdx? (fun en => matchesPos pos en) with
      | some i => (strategyUpdateCells g (Event.Flag pos) cells).Perm (cells.eraseIdx i)
      | none => strategyUpdateCells g (Event.Flag pos) cells = cells)) ∧
    (∀ b : BijectionDetection, b.initialized = true → b.cells_of_interest = cells →
      (b.update g (Event.Flag pos)).cells_of_interest =
        strategyUpdateCells g (Event.Flag pos) cells) ∧
    (∀ s : ExhaustedCellDetection, s.initialized = true → s.cells_of_interest = cells →
      (s.update g (Event.Flag pos)).cells_of_interest =
        strategyUpdateCells g (Event.Flag pos) cells) := by
  have hupd_some : ∀ i, (cells.filterMap id).findIdx? (fun en => matchesPos pos en) = some i →
      strategyUpdateCells g (Event.Flag pos) cells = removeNones (listSwapRemove cells i) := by
    intro i hf
    show removeNones
      (match (cells.filterMap id).findIdx? (fun en => matchesPos pos en) with
        | some delete_idx => listSwapRemove cells delete_idx
        | none => cells) = removeNones (listSwapRemove cells i)
    rw [hf]
  have hupd_none : (cells.filterMap id).findIdx? (fun en => matchesPos pos en) = none →
      strategyUpdateCells g (Event.Flag pos) cells = removeNones cells := by
    intro hf
    show removeNones
      (match (cells.filterMap id).findIdx? (fun en => matchesPos pos en) with
        | some delete_idx => listSwapRemove cells delete_idx
        | none => cells) = removeNones cells
    rw [hf]
  refine ⟨⟨?_, ?_⟩, ?_, ?_⟩
  · -- nothing is added
    intro e he
    cases hfind : (cells.filterMap id).findIdx? (fun en => matchesPos pos en) with
    | none =>
      rw [hupd_none hfind, removeNones_of_all_some cells hall] at he
      exact he
    | some i =>
      have hi : i < cells.length := by
        have hlt := (List.findIdx?_eq_some_iff_findIdx_eq.mp hfind).1
        rw [filterMap_id_length_of_all_some cells hall] at hlt
        exact hlt
      have hperm := swapRemove_perm_eraseIdx cells i hi
      have hsub : ∀ x ∈ listSwapRemove cells i, x ∈ cells := by
        intro x hx
        exact List.eraseIdx_subset cells i (hperm.mem_iff.mp hx)
      have hall1 : ∀ x ∈ listSwapRemove cells i, x.isSome = true :=
        fun x hx => hall x (hsub x hx)
      rw [hupd_some i hfind, removeNones_of_all_some _ hall1] at he
      exact hsub e he
  · -- exact effect
    cases hfind : (cells.filterMap id).findIdx? (fun en => matchesPos pos en) with
    | none =>
      rw [hupd_none hfind, removeNones_of_all_some cells hall]
    | some i =>
      have hi : i < cells.length := by
        have hlt := (List.findIdx?_eq_some_iff_findIdx_eq.mp hfind).1
        rw [filterMap_id_length_of_all_some cells hall] at hlt
        exact hlt
      have hperm := swapRemove_perm_eraseIdx cells i hi
      have hall1 : ∀ x ∈ listSwapRemove cells i, x.isSome = true := by
        intro x hx
        exact hall x (List.eraseIdx_subset cells i (hperm.mem_iff.mp hx))
      rw [hupd_some i hfind, removeNones_of_all_some _ hall1]
      exact hperm
  · intro b hb hcell
    unfold BijectionDetection.update
    rw [hb, hcell]
    rfl
  · intro s hs hcell
    unfold ExhaustedCellDetection.update
    rw [hs, hcell]
    rfl

/-- Claim C8, witness at a concrete one-entry frontier. -/
theorem flag_update_removes_only_witness :
    (∀ e ∈ strategyUpdateCells g22F (Event.Flag (0, 0))
        [some (0, 0, ⟨CellState.Empty, CellVisibility.Empty 1⟩)],
      e ∈ [some (0, 0, ⟨CellState.Empty, CellVisibility.Empty 1⟩)]) ∧
    (BijectionDetection.update
        ⟨true, [some (0, 0, ⟨CellState.Empty, CellVisibility.Empty 1⟩)]⟩
        g22F (Event.Flag (0, 0))).cells_of_interest =
      strategyUpdateCells g22F (Event.Flag (0, 0))
        [some (0, 0, ⟨CellState.Empty, CellVisibility.Empty 1⟩)] := by
  have h := flag_update_removes_only g22F (0, 0)
    [some (0, 0, ⟨CellState.Empty, CellVisibility.Empty 1⟩)] (by decide)
  exact ⟨h.1.1, h.2.1 _ rfl rfl⟩

/-
Model of the group-partition phase of educated_guess (src/main.rs lines
150-218).  The Rust code collects all Unknown cells, then runs a nested
loop: the outer loop picks the first ungrouped cell as a seed, the inner
loop grows the current group by popping a cell from check_queue (a Vec used
as a LIFO stack) and scanning the neighbors-of-neighbors of that cell; an
Unknown neighbor still in ungrouped_cells is added to the group, pushed on
the queue and removed from ungrouped_cells.  The seed itself is never
removed from ungrouped_cells at selection time.  HashSet iteration is
modelled as iteration over a duplicate-free list kept in insertion order
(the seed is the head of the ungrouped list); the HashSet-deduplication of
the neighborhood is dropped, which is semantically identical because
processing the same neighbor twice is a no-op the second time (it has
already been removed from the ungrouped list).  Both unbounded while loops
are given explicit fuel and return none when it runs out, so `none` for
every fuel models nontermination of the corresponding Rust loop under this
iteration order.
-/

/-- The unknown-cell collection loop of educated_guess: `(i % width, i / width)`
for every field index whose cell is Unknown. -/
def unknownCells (g : GameState) : List (Nat × Nat) :=
  g.field.enum.filterMap fun p =>
    match p.2.visibility with
    | CellVisibility.Unknown => some (p.1 % g.width, p.1 / g.width)
    | _ => none

/-- neighbors-of-neighbors of a cell, as flattened in the Rust code. -/
def neighborhoodOf (g : GameState) (cell : Nat × Nat) : List (Nat × Nat) :=
  ((g.neighbors cell.1 cell.2).map fun e => g.neighbors e.1 e.2).flatten

/-- HashSet::insert on the group, modelled on a duplicate-free list. -/
def insertPos (grp : List (Nat × Nat)) (p : Nat × Nat) : List (Nat × Nat) :=
  if p ∈ grp then grp else grp ++ [p]

/-- One iteration of the inner while loop body: scan the neighborhood of
`cell`, adding Unknown still-ungrouped neighbors to the group and queue and
removing them from the ungrouped list; a neighbor equal to `cell` is
skipped by the `continue`. -/
def groupStep (g : GameState) (cell : Nat × Nat)
    (grp queue ung : List (Nat × Nat)) :
    List (Nat × Nat) × List (Nat × Nat) × List (Nat × Nat) :=
  (neighborhoodOf g cell).foldl
    (fun st nb =>
      if nb = cell then st
      else if nb ∈ st.2.2 then
        match g.cellAt nb.1 nb.2 with
        | some c =>
          match c.visibility with
          | CellVisibility.Unknown => (insertPos st.1 nb, nb :: st.2.1, st.2.2.erase nb)
          | _ => st
        | none => st
      else st)
    (grp, queue, ung)

/-- The inner `while check_queue.len() > 0` loop, fueled.  The queue is a
LIFO stack exactly like the Rust Vec (new cells are consed at the front and
the front is popped). -/
def bfsLoop (g : GameState) :
    List (Nat × Nat) → Nat → List (Nat × Nat) → List (Nat × Nat) →
    Option (List (Nat × Nat) × List (Nat × Nat))
  | [], _, grp, ung => some (grp, ung)
  | cell :: queue, fuel, grp, ung =>
    match fuel with
    | 0 => none
    | fuel + 1 =>
      bfsLoop g (groupStep g cell grp queue ung).2.1 fuel
        (groupStep g cell grp queue ung).1 (groupStep g cell grp queue ung).2.2

/-- The outer `while ungrouped_cells.len() > 0` loop, fueled: pick the first
ungrouped cell as seed, insert it into the current group, run the inner
loop, and if ungrouped cells remain start a fresh group. -/
def outerLoop (g : GameState) :
    List (Nat × Nat) → Nat → Nat → List (List (Nat × Nat)) → List (Nat × Nat) →
    Option (List (List (Nat × Nat)))
  | [], _, _, done, cur => some (done ++ [cur])
  | _ :: _, 0, _, _, _ => none
  | seed :: rest, fo + 1, fi, done, cur =>
    match bfsLoop g [seed] fi (insertPos cur seed) (seed :: rest) with
    | none => none
    | some (cur2, ung2) =>
      if ung2.isEmpty then some (done ++ [cur2])
      else outerLoop g ung2 fo fi (done ++ [cur2]) []

/-- The whole partition phase of educated_guess, with fuel for both loops. -/
def computeGroups (g : GameState) (fo fi : Nat) : Option (List (List (Nat × Nat))) :=
  outerLoop g (unknownCells g) fo fi [] []

/-- A 3-wide, 1-tall board whose three cells are all Unknown. -/
def board3 : GameState :=
  ⟨List.replicate 3 ⟨CellState.Empty, CellVisibility.Unknown⟩, 3, 1,
   GameCondition.InProgress, 0, 0⟩

/-- A 4-wide, 1-tall board whose four cells are all Unknown. -/
def board4 : GameState :=
  ⟨List.replicate 4 ⟨CellState.Empty, CellVisibility.Unknown⟩, 4, 1,
   GameCondition.InProgress, 0, 0⟩

/-- Spec-side relation (modelled from the specification's words, for
comparison with the code): two unknown cells share a revealed neighbor
clue, i.e. some common neighbor is a cell whose visibility is
`Revealed(n)` (CellVisibility.Empty n). -/
def SpecSharesRevealedClue (g : GameState) (a b : Nat × Nat) : Prop :=
  ∃ e, e ∈ g.neighbors a.1 a.2 ∧ e ∈ g.neighbors b.1 b.2 ∧
    ∃ c n, g.cellAt e.1 e.2 = some c ∧ c.visibility = CellVisibility.Empty n

theorem bfsLoop_mono (g : GameState) :
    ∀ (fuel : Nat) (queue grp ung : List (Nat × Nat))
      (res : List (Nat × Nat) × List (Nat × Nat)),
      bfsLoop g queue fuel grp ung = some res →
      bfsLoop g queue (fuel + 1) grp ung = some res := by
  intro fuel
  induction fuel with
  | zero =>
    intro queue grp ung res h
    cases queue with
    | nil => exact h
    | cons c q => cases h
  | succ k ih =>
    intro queue grp ung res h
    cases queue with
    | nil => exact h
    | cons c q =>
      show bfsLoop g (groupStep g c grp q ung).2.1 (k + 1)
        (groupStep g c grp q ung).1 (groupStep g c grp q ung).2.2 = some res
      exact ih _ _ _ _ h

theorem bfsLoop_mono_le (g : GameState) {fuel fuel' : Nat} (hle : fuel ≤ fuel')
    (queue grp ung : List (Nat × Nat)) (res : List (Nat × Nat) × List (Nat × Nat))
    (h : bfsLoop g queue fuel grp ung = some res) :
    bfsLoop g queue fuel' grp ung = some res := by
  obtain ⟨d, rfl⟩ := Nat.exists_eq_add_of_le hle
  clear hle
  induction d with
  | zero => exact h
  | succ d ihd =>
    rw [show fuel + (d + 1) = (fuel + d) + 1 by omega]
    exact bfsLoop_mono g _ _ _ _ _ ihd

theorem bfsLoop_nil (g : GameState) (fuel : Nat) (grp ung : List (Nat × Nat)) :
    bfsLoop g [] fuel grp ung = some (grp, ung) := by
  cases fuel <;> rfl

/-- On board3 the middle cell (1,0) is isolated for the code's relation: its
neighbors-of-neighbors neighborhood is just itself, which the loop skips,
so one inner step from it changes nothing and never removes it from the
ungrouped list. -/
theorem groupStep_isolated (grp : List (Nat × Nat)) :
    groupStep board3 (1, 0) grp [] [(1, 0)] = (grp, [], [(1, 0)]) := by
  unfold groupStep
  rw [show neighborhoodOf board3 (1, 0) = [(1, 0), (1, 0)] from rfl]
  simp

theorem bfs_isolated (k : Nat) (grp : List (Nat × Nat)) :
    bfsLoop board3 [(1, 0)] (k + 1) grp [(1, 0)] = some (grp, [(1, 0)]) := by
  show bfsLoop board3 (groupStep board3 (1, 0) grp [] [(1, 0)]).2.1 k
    (groupStep board3 (1, 0) grp [] [(1, 0)]).1
    (groupStep board3 (1, 0) grp [] [(1, 0)]).2.2 = some (grp, [(1, 0)])
  rw [groupStep_isolated grp]
  exact bfsLoop_nil board3 k grp [(1, 0)]

/-- Once the ungrouped list is exactly [(1,0)] on board3, the outer loop
never terminates, whatever the remaining fuel. -/
theorem outer_stuck_isolated :
    ∀ (fo fi : Nat) (done : List (List (Nat × Nat))) (cur : List (Nat × Nat)),
      outerLoop board3 [(1, 0)] fo fi done cur = none := by
  intro fo
  induction fo with
  | zero => intro fi done cur; rfl
  | succ fo ih =>
    intro fi done cur
    show (match bfsLoop board3 [(1, 0)] fi (insertPos cur (1, 0)) [(1, 0)] with
      | none => none
      | some (cur2, ung2) =>
        if ung2.isEmpty then some (done ++ [cur2])
        else outerLoop board3 ung2 fo fi (done ++ [cur2]) []) = none
    cases fi with
    | zero => rfl
    | succ k =>
      rw [bfs_isolated k (insertPos cur (1, 0))]
      show outerLoop board3 [(1, 0)] fo (k + 1) (done ++ [insertPos cur (1, 0)]) [] = none
      exact ih (k + 1) _ _

/-- The partition loop does not terminate on board3 for any fuel: the first
seed (0,0) absorbs (2,0) and removes it, leaving ungrouped [(1,0)], which
is isolated and never removed. -/
theorem board3_computeGroups_none : ∀ (fo fi : Nat), computeGroups board3 fo fi = none := by
  intro fo fi
  cases fo with
  | zero => rfl
  | succ fo =>
    rcases Nat.lt_or_ge fi 3 with hfi | hfi
    · interval_cases fi <;> rfl
    · obtain ⟨k, rfl⟩ := Nat.exists_eq_add_of_le hfi
      have h3 : bfsLoop board3 [(0, 0)] 3 [(0, 0)] [(0, 0), (1, 0), (2, 0)]
          = some ([(0, 0), (2, 0)], [(1, 0)]) := by decide
      have h := bfsLoop_mono_le board3 (show 3 ≤ 3 + k by omega)
        [(0, 0)] [(0, 0)] [(0, 0), (1, 0), (2, 0)] ([(0, 0), (2, 0)], [(1, 0)]) h3
      show (match bfsLoop board3 [(0, 0)] (3 + k) [(0, 0)] [(0, 0), (1, 0), (2, 0)] with
        | none => none
        | some (cur2, ung2) =>
          if ung2.isEmpty then some (([] : List (List (Nat × Nat))) ++ [cur2])
          else outerLoop board3 ung2 fo (3 + k) (([] : List (List (Nat × Nat))) ++ [cur2]) []) = none
      rw [h]
      show outerLoop board3 [(1, 0)] fo (3 + k) ([] ++ [[(0, 0), (2, 0)]]) [] = none
      exact outer_stuck_isolated fo (3 + k) _ _

/-- On board4 the loop terminates and groups (0,0) with (2,0) (and (1,0)
with (3,0)), merging cells that only share an Unknown neighbor. -/
theorem board4_groups : computeGroups board4 2 6 = some [[(0, 0), (2, 0)], [(1, 0), (3, 0)]] := by
  decide

/-- board4 has no revealed cell at all, so the spec's shares-a-revealed-clue
relation is empty on it. -/
theorem board4_no_clue : ∀ a b : Nat × Nat, ¬ SpecSharesRevealedClue board4 a b := by
  intro a b ⟨e, _, _, c, n, hc, hv⟩
  unfold GameState.cellAt at hc
  split at hc
  · cases hc
  · rw [List.get?_eq_getElem?] at hc
    have hm := List.getElem?_mem hc
    have he := List.eq_of_mem_replicate hm
    rw [he] at hv
    cases hv

theorem rtg_of_empty {α : Type} {r : α → α → Prop} (hr : ∀ a b, ¬ r a b)
    {a b : α} (h : Relation.ReflTransGen r a b) : a = b := by
  induction h with
  | refl => rfl
  | tail _ hstep _ => exact absurd hstep (hr _ _)

/-- Claim C7: refuted.  The group partition computed before enumeration is
neither total nor the claimed closure.  On the 3-wide all-Unknown board the
outer grouping loop never terminates for any fuel (the isolated middle
cell is never removed from the ungrouped set, because a seed is only
removed when reached from another queued cell).  On the 4-wide all-Unknown
board the loop terminates but places (0,0) and (2,0) in the same group
although the board has no revealed cell, so the two are not related by the
reflexive-transitive closure of the spec's shares-a-revealed-clue
relation: the code only checks that the merged endpoint is Unknown,
never that the connecting middle cell is a revealed clue. -/
theorem educated_guess_grouping_bug :
    (∀ fo fi : Nat, computeGroups board3 fo fi = none) ∧
    (∃ grps grp, computeGroups board4 2 6 = some grps ∧ grp ∈ grps ∧
      (0, 0) ∈ grp ∧ (2, 0) ∈ grp ∧
      ¬ Relation.ReflTransGen (SpecSharesRevealedClue board4) (0, 0) (2, 0)) := by
  refine ⟨board3_computeGroups_none, [[(0, 0), (2, 0)], [(1, 0), (3, 0)]], [(0, 0), (2, 0)],
    board4_groups, by decide, by decide, by decide, fun h => ?_⟩
  have := rtg_of_empty (board4_no_clue) h
  cases this
